import Mathlib

/-!
Verification of the Flockwave device-tree core
(`src/flockwave/server/model/devices.py` and
`src/src/flockwave/server/registries/uavs.py`).

Python strings are modelled as `List Char`, Python dicts as insertion-ordered
association lists (`List (key × value)`), and `collections.Counter` as an
association list from client identities to `Int` counts in which a missing key
reads as `0`.  Clients are modelled as `Nat` (the hashable client identity).
Exceptions are modelled with `Except`; in-place mutation of a node reached by
path resolution is modelled by rebuilding the spine of the tree with the
mutated node substituted.
-/

set_option maxHeartbeats 1000000

/-- Characters of a Python string. -/
abbrev Seg := List Char

/-- Client identities (hashable Python objects used as `Counter` keys). -/
abbrev Client := Nat

/-- First value stored under a key in an association list, mirroring a Python
dict lookup (`d[k]` / `d.get(k)`). -/
def assocLookup {α β : Type} [DecidableEq α] : List (α × β) → α → Option β
  | [], _ => none
  | (k', v) :: rest, k => if k' = k then some v else assocLookup rest k

/-- Python dict item assignment `d[k] = v`: replaces the value under an
existing key in place, appends a new entry otherwise. -/
def assocSet {α β : Type} [DecidableEq α] : List (α × β) → α → β → List (α × β)
  | [], k, v => [(k, v)]
  | (k', v') :: rest, k, v =>
      if k' = k then (k', v) :: rest else (k', v') :: assocSet rest k v

/-- Python dict deletion `del d[k]`: removes the first entry with the key. -/
def assocErase {α β : Type} [DecidableEq α] : List (α × β) → α → List (α × β)
  | [], _ => []
  | (k', v') :: rest, k => if k' = k then rest else (k', v') :: assocErase rest k

/-- Reading a `collections.Counter`: a missing key counts as `0`. -/
def counterGet [DecidableEq α] (l : List (α × Int)) (k : α) : Int :=
  (assocLookup l k).getD 0

/-- Python `str.split("/")` on a list of characters. -/
def splitSlash : List Char → List (List Char)
  | [] => [[]]
  | c :: rest =>
    match splitSlash rest with
    | [] => [[c]]
    | p :: ps => if c = '/' then [] :: p :: ps else (c :: p) :: ps

/-- Python `"/".join(parts)` on lists of characters. -/
def joinSlash : List Seg → List Char
  | [] => []
  | [p] => p
  | p :: rest => p ++ '/' :: joinSlash rest

/-- The abstract error kinds raised by the device-tree core.  Python
exceptions are mapped as follows: `ValueError` raised by the
`DeviceTreePath.path` setter is `invalidPathSyntax`; `NoSuchPathError` is
`noSuchPath`; an uncaught Python `AttributeError` (reading a `children`
attribute that was never created) is `attributeError`; `KeyError` raised by
`DeviceTreeNodeBase._unsubscribe` is `keyError`; `ClientNotSubscribedError`
is `notSubscribed`; `ValueError` raised by `DeviceTreeNodeBase._add_child`
for an existing child ID is `duplicateChildId`. -/
inductive DTError where
  | invalidPathSyntax
  | noSuchPath
  | attributeError
  | keyError
  | notSubscribed
  | duplicateChildId
  deriving DecidableEq

/-- The `DeviceTreePath.path` setter: splits on `/`, requires the first part
to be empty, pops one trailing empty part, and rejects empty parts at
positions ≥ 1 (`parts.index(u"", 1)`).  Returns the stored `_parts` list. -/
def parsePath (value : List Char) : Except DTError (List Seg) :=
  let parts := splitSlash value
  if parts.head? ≠ some ([] : Seg) then .error .invalidPathSyntax
  else
    let parts := if parts.getLast? = some ([] : Seg) then parts.dropLast else parts
    if ([] : Seg) ∈ parts.drop 1 then .error .invalidPathSyntax
    else .ok parts

/-- `DeviceTreePath.iterparts`: the parts of the path except the implicit
root marker (`islice(self._parts, 1, None)`). -/
def iterparts (parts : List Seg) : List Seg :=
  parts.drop 1

/-- Reading a client's count from a lazily created subscriber counter: an
absent (`None`) or empty counter is falsy in Python and yields `0`. -/
def countOfSubs (subs : Option (List (Client × Int))) (client : Client) : Int :=
  match subs with
  | none => 0
  | some l => if l.isEmpty then 0 else counterGet l client

/-- The type tag of a device tree node (`DeviceTreeNodeType`). -/
inductive NodeType where
  | root
  | uav
  | device
  | channel
  deriving DecidableEq

/-- A node of the device tree (`DeviceTreeNodeBase` and its subclasses
`RootNode`, `UAVNode`, `DeviceNode`, `ChannelNode`).  `subscribers` models
the lazily created `_subscribers` counter (`none` until the first
subscription); `children` models the lazily created `children` dict (`none`
until the first `_add_child`, in which case reading it raises
`AttributeError`).  The channel value, channel subtype and operation list
carried by `ChannelNode`, and the device class of `DeviceNode`, play no role
in any operation verified here and are omitted. -/
inductive DeviceTreeNode where
  | mk (type : NodeType)
       (subscribers : Option (List (Client × Int)))
       (children : Option (List (Seg × DeviceTreeNode)))

namespace DeviceTreeNode

/-- The node's type tag. -/
def type : DeviceTreeNode → NodeType
  | .mk t _ _ => t

/-- The node's `_subscribers` counter (`none` when never created). -/
def subscribers : DeviceTreeNode → Option (List (Client × Int))
  | .mk _ s _ => s

/-- The node's `children` dict (`none` when the attribute was never created). -/
def children : DeviceTreeNode → Option (List (Seg × DeviceTreeNode))
  | .mk _ _ c => c

/-- Replace the `_subscribers` field. -/
def setSubscribers : DeviceTreeNode → Option (List (Client × Int)) → DeviceTreeNode
  | .mk t _ c, s => .mk t s c

/-- Replace the `children` field. -/
def setChildren : DeviceTreeNode → Option (List (Seg × DeviceTreeNode)) → DeviceTreeNode
  | .mk t s _, c => .mk t s c

/-- `DeviceTreeNodeBase.count_subscriptions_of`: the client's count in the
subscriber counter, or `0` when the counter is absent or empty. -/
def count_subscriptions_of (n : DeviceTreeNode) (client : Client) : Int :=
  countOfSubs n.subscribers client

/-- `DeviceTreeNodeBase.iterchildren`: the children in insertion order, or
nothing when the `children` attribute was never created. -/
def iterchildren (n : DeviceTreeNode) : List (Seg × DeviceTreeNode) :=
  match n.children with
  | none => []
  | some l => l

/-- `DeviceTreeNodeBase._subscribe`: creates the subscriber counter lazily
and increments the client's count by one. -/
def subscribe (client : Client) (n : DeviceTreeNode) : DeviceTreeNode :=
  let subs := n.subscribers.getD []
  n.setSubscribers (some (assocSet subs client (counterGet subs client + 1)))

/-- `DeviceTreeNodeBase._unsubscribe`: if the client's count is positive,
a forced call deletes the entry and a non-forced call decrements it by one
(which can leave an entry with count zero in the counter); with a zero count
a non-forced call raises `KeyError` and a forced call is a no-op. -/
def unsubscribe (client : Client) (force : Bool) (n : DeviceTreeNode) :
    Except DTError DeviceTreeNode :=
  if n.count_subscriptions_of client > 0 then
    let subs := n.subscribers.getD []
    if force then
      .ok (n.setSubscribers (some (assocErase subs client)))
    else
      .ok (n.setSubscribers (some (assocSet subs client (counterGet subs client - 1))))
  else if !force then
    .error .keyError
  else
    .ok n

/-- `DeviceTreeNodeBase._add_child`: creates the `children` dict lazily,
raises for an existing ID and appends the new entry otherwise. -/
def add_child (n : DeviceTreeNode) (id : Seg) (child : DeviceTreeNode) :
    Except DTError DeviceTreeNode :=
  let ch := n.children.getD []
  if (assocLookup ch id).isSome then .error .duplicateChildId
  else .ok (n.setChildren (some (ch ++ [(id, child)])))

end DeviceTreeNode

/-- `DeviceTree.resolve`, iterating over the parts of an already parsed path
(`path.iterparts()`): descends through `node.children[part]`.  A missing key
raises `KeyError`, converted to `NoSuchPathError`; reading `children` on a
node that never had a child raises an uncaught `AttributeError`. -/
def resolveParts (n : DeviceTreeNode) : List Seg → Except DTError DeviceTreeNode
  | [] => .ok n
  | p :: rest =>
    match n.children with
    | none => .error .attributeError
    | some ch =>
      match assocLookup ch p with
      | none => .error .noSuchPath
      | some c => resolveParts c rest

/-- Resolution followed by in-place mutation of the resolved node
(`self._tree.resolve(path)` followed by a mutating method call on the
result), modelled by rebuilding the spine of the tree with the mutated node
substituted; the traversal and its error behavior are exactly those of
`DeviceTree.resolve`. -/
def modifyAtParts (f : DeviceTreeNode → Except DTError DeviceTreeNode)
    (n : DeviceTreeNode) : List Seg → Except DTError DeviceTreeNode
  | [] => f n
  | p :: rest =>
    match n.children with
    | none => .error .attributeError
    | some ch =>
      match assocLookup ch p with
      | none => .error .noSuchPath
      | some c =>
        match modifyAtParts f c rest with
        | .error e => .error e
        | .ok c2 => .ok (n.setChildren (some (assocSet ch p c2)))

/-- `DeviceTreeSubscriptionManager.subscribe`: resolves the path and
increments the resolved node's counter for the client. -/
def subscribeM (tree : DeviceTreeNode) (client : Client) (segs : List Seg) :
    Except DTError DeviceTreeNode :=
  modifyAtParts (fun n => .ok (n.subscribe client)) tree segs

/-- `DeviceTreeSubscriptionManager.unsubscribe`: resolves the path and
unsubscribes the client there; a `KeyError` escaping `_unsubscribe` is
converted to `ClientNotSubscribedError`.  The spec states that a resolution
failure is propagated unchanged, so `NoSuchPathError` (defined in the
repository's `errors` module, which is not part of the sources here) is
modelled as not being a `KeyError`. -/
def unsubscribeM (tree : DeviceTreeNode) (client : Client) (segs : List Seg)
    (force : Bool) : Except DTError DeviceTreeNode :=
  match modifyAtParts (DeviceTreeNode.unsubscribe client force) tree segs with
  | .error .keyError => .error .notSubscribed
  | r => r

/-- The effect of `_unsubscribe(client, force=True)` on the subscriber
counter: an entry with a positive count is deleted, anything else is left
unchanged. -/
def purgeSubs (client : Client) (subs : Option (List (Client × Int))) :
    Option (List (Client × Int)) :=
  match subs with
  | none => none
  | some l =>
    if (if l.isEmpty then 0 else counterGet l client) > 0 then
      some (assocErase l client)
    else
      some l

mutual

/-- `DeviceTreeSubscriptionManager._on_client_removed`: walks every node of
the tree and force-unsubscribes the client from each.  The source iterates
the one-shot `traverse_dfs` generator and mutates each visited node in
place; since the per-node effect touches only that node's subscriber counter
and every node of the tree is visited exactly once, this is modelled as a
recursive map over the tree. -/
def purgeClientNode (client : Client) (n : DeviceTreeNode) : DeviceTreeNode :=
  match n with
  | .mk t subs ch => .mk t (purgeSubs client subs) (purgeClientChildren client ch)

/-- Forced unsubscription mapped over an optional children dict. -/
def purgeClientChildren (client : Client)
    (o : Option (List (Seg × DeviceTreeNode))) : Option (List (Seg × DeviceTreeNode)) :=
  match o with
  | none => none
  | some l => some (purgeClientList client l)

/-- Forced unsubscription mapped over a children list. -/
def purgeClientList (client : Client) (l : List (Seg × DeviceTreeNode)) :
    List (Seg × DeviceTreeNode) :=
  match l with
  | [] => []
  | (s, c) :: rest => (s, purgeClientNode client c) :: purgeClientList client rest

end

/-- `result[key] += count` on the result counter of
`_collect_subscriptions`. -/
def counterAdd (result : List (List Char × Int)) (key : List Char) (count : Int) :
    List (List Char × Int) :=
  assocSet result key (counterGet result key + count)

mutual

/-- Weight of the subtree of a node (a termination measure). -/
def nodeSize : DeviceTreeNode → Nat
  | .mk _ _ ch => 1 + childrenSize ch

/-- Weight of an optional children dict. -/
def childrenSize : Option (List (Seg × DeviceTreeNode)) → Nat
  | none => 0
  | some l => 1 + childListSize l

/-- Weight of a children list. -/
def childListSize : List (Seg × DeviceTreeNode) → Nat
  | [] => 0
  | (_, c) :: rest => 1 + nodeSize c + childListSize rest

end

/-- The first step of `_collect_subscriptions`: adds the node's own
subscription count under the node's full path string when it is positive. -/
def collectOwn (client : Client) (pp : List Seg)
    (subs : Option (List (Client × Int))) (result : List (List Char × Int)) :
    List (List Char × Int) :=
  if countOfSubs subs client > 0 then
    counterAdd result (joinSlash pp) (countOfSubs subs client)
  else
    result

/-- Weight of a collection worklist: the sum of the subtree weights of the
nodes still to be visited. -/
def frameWeight (q : List (List Seg × DeviceTreeNode)) : Nat :=
  (q.map (fun e => nodeSize e.2)).sum

theorem sizes_le_childListSize (l : List (Seg × DeviceTreeNode)) :
    (l.map (fun p => nodeSize p.2)).sum ≤ childListSize l := by
  induction l with
  | nil => simp [childListSize]
  | cons a rest ih =>
    obtain ⟨s, c⟩ := a
    simp only [List.map_cons, List.sum_cons, childListSize]
    omega

theorem iterchildren_sizes_lt (n : DeviceTreeNode) :
    ((n.iterchildren).map (fun p => nodeSize p.2)).sum < nodeSize n := by
  obtain ⟨t, subs, ch⟩ := n
  match ch with
  | none =>
    simp [DeviceTreeNode.iterchildren, DeviceTreeNode.children, nodeSize, childrenSize]
  | some l =>
    have h := sizes_le_childListSize l
    simp only [DeviceTreeNode.iterchildren, DeviceTreeNode.children, nodeSize, childrenSize]
    omega

/-- `DeviceTreeSubscriptionManager._collect_subscriptions`, rendered with an
explicit pre-order worklist: each frame carries the full part list leading
to its node (the source pushes the child ID onto a shared path before
descending and pops it afterwards).  A frame adds the node's own positive
subscription count under the node's full path string, then queues the
children in insertion order in front of the remaining frames, so the nodes
are visited, and the shared result counter is updated, in exactly the order
of the source's recursion. -/
def collectFrames (client : Client) (q : List (List Seg × DeviceTreeNode))
    (result : List (List Char × Int)) : List (List Char × Int) :=
  match q with
  | [] => result
  | (pp, n) :: rest =>
      collectFrames client ((n.iterchildren.map (fun p => (pp ++ [p.1], p.2))) ++ rest)
        (collectOwn client pp n.subscribers result)
termination_by frameWeight q
decreasing_by
  have h := iterchildren_sizes_lt n
  simp only [frameWeight, List.map_append, List.sum_append, List.map_map,
    List.map_cons, List.sum_cons, Function.comp_def]
  omega

/-- `_collect_subscriptions(client, path, node, result)`. -/
def collect_subscriptions (client : Client) (pp : List Seg)
    (n : DeviceTreeNode) (result : List (List Char × Int)) : List (List Char × Int) :=
  collectFrames client [(pp, n)] result

/-- The filter loop of `DeviceTreeSubscriptionManager.list_subscriptions`:
each filter string is parsed (`DeviceTreePath(path)`, both inside `resolve`
and for the clone), resolved, and its subtree's subscriptions are collected
into the shared result counter. -/
def listSubsGo (tree : DeviceTreeNode) (client : Client) :
    List (List Char) → List (List Char × Int) → Except DTError (List (List Char × Int))
  | [], result => .ok result
  | f :: rest, result =>
    match parsePath f with
    | .error e => .error e
    | .ok parts =>
      match resolveParts tree (iterparts parts) with
      | .error e => .error e
      | .ok node => listSubsGo tree client rest (collect_subscriptions client parts node result)

/-- `DeviceTreeSubscriptionManager.list_subscriptions`: defaults the filter
list to the single root path `"/"` and accumulates the collected
subscriptions of all filters into one counter. -/
def list_subscriptions (tree : DeviceTreeNode) (client : Client)
    (path_filter : Option (List (List Char))) : Except DTError (List (List Char × Int)) :=
  let fs := match path_filter with
    | none => [['/']]
    | some given => given
  listSubsGo tree client fs []

/-- Total weight of a traversal stack: the sum of the sizes of the nodes
still to be visited. -/
def stackWeight (q : List (Option Seg × DeviceTreeNode)) : Nat :=
  (q.map (fun e => nodeSize e.2)).sum

/-- `DeviceTreeNodeBase.traverse_dfs`, written as the source writes it: a
stack seeded with the node itself, popping the most recently pushed entry,
yielding it and pushing its children.  The Python list pops from the end and
extends with the children in insertion order; here the head of the list is
the top of the stack, so the children are pushed reversed. -/
def traverseAux (q : List (Option Seg × DeviceTreeNode)) :
    List (Option Seg × DeviceTreeNode) :=
  match q with
  | [] => []
  | (i, n) :: rest =>
      (i, n) :: traverseAux (((n.iterchildren).reverse.map (fun p => (some p.1, p.2))) ++ rest)
termination_by stackWeight q
decreasing_by
  have h := iterchildren_sizes_lt n
  simp only [stackWeight, List.map_append, List.sum_append, List.map_reverse,
    List.sum_reverse, List.map_map, List.map_cons, List.sum_cons, Function.comp_def]
  omega

/-- `DeviceTreeNodeBase.traverse_dfs(own_id)` for a single node. -/
def DeviceTreeNode.traverse_dfs (n : DeviceTreeNode) (own_id : Option Seg) :
    List (Option Seg × DeviceTreeNode) :=
  traverseAux [(own_id, n)]

/-- `DeviceTree.traverse_dfs`: the root's traversal with no own ID. -/
def treeTraverseDfs (root : DeviceTreeNode) : List (Option Seg × DeviceTreeNode) :=
  root.traverse_dfs none

/-- A UAV object as seen by the registry: a stable string ID plus an
object-identity tag distinguishing different UAV objects that share an ID
(the registry compares the stored object with the object being added). -/
structure UAV where
  uid : Nat
  id : Seg
  deriving DecidableEq

/-- The observable state of a `UAVRegistry`: its `_entries` dict plus the
log of payloads sent on the `added` signal. -/
structure UAVRegistryState where
  entries : List (Seg × UAV)
  addedEvents : List UAV
  deriving DecidableEq

/-- `UAVRegistry.add`: looks up the stored object under the UAV's ID, raises
`KeyError` when a different object is stored, and otherwise stores the UAV
and sends the `added` signal (also when the very same object was already
registered). -/
def uavRegistryAdd (r : UAVRegistryState) (uav : UAV) : Except DTError UAVRegistryState :=
  match assocLookup r.entries uav.id with
  | some o =>
    if o ≠ uav then .error .keyError
    else .ok ⟨assocSet r.entries uav.id uav, r.addedEvents ++ [uav]⟩
  | none => .ok ⟨assocSet r.entries uav.id uav, r.addedEvents ++ [uav]⟩

/-- `DeviceTree._on_uav_added`: attaches the UAV's device tree node under
the root, keyed by the UAV's ID (`self.root.add_child(uav.id,
uav.device_tree_node)`); the node is passed explicitly here. -/
def on_uav_added (root : DeviceTreeNode) (uav : UAV) (node : DeviceTreeNode) :
    Except DTError DeviceTreeNode :=
  root.add_child uav.id node

mutual

/-- Specified content of `ListSubscriptions` for one subtree (from the
spec): every node of the subtree at which the client's multiplicity is
positive contributes one entry carrying the node's path relative to the
subtree root and its multiplicity, children in insertion order. -/
def entriesNode (client : Client) : DeviceTreeNode → List (List Seg × Int)
  | .mk _ subs ch =>
      (if countOfSubs subs client > 0 then [(([] : List Seg), countOfSubs subs client)] else [])
        ++ entriesChildrenOpt client ch

/-- Entries contributed below an optional children dict. -/
def entriesChildrenOpt (client : Client) :
    Option (List (Seg × DeviceTreeNode)) → List (List Seg × Int)
  | none => []
  | some l => entriesChildren client l

/-- Entries contributed by a children list, each child's entries prefixed
with the child's ID. -/
def entriesChildren (client : Client) :
    List (Seg × DeviceTreeNode) → List (List Seg × Int)
  | [] => []
  | (cid, c) :: rest =>
      (entriesNode client c).map (fun e => (cid :: e.1, e.2)) ++ entriesChildren client rest

end

/-- Entries of a subtree with absolute path strings: the relative part
lists are appended to the part list of the subtree root and rendered as
strings. -/
def absEntries (client : Client) (pp : List Seg) (n : DeviceTreeNode) :
    List (List Char × Int) :=
  (entriesNode client n).map (fun e => (joinSlash (pp ++ e.1), e.2))

/-- Sum of the counts carried by the entries with the given key. -/
def keySum (key : List Char) : List (List Char × Int) → Int
  | [] => 0
  | (k, v) :: rest => (if k = key then v else 0) + keySum key rest

/-- Specified value of `ListSubscriptions` at one key for one filter path
(from the spec): a filter that parses and resolves contributes the counts
of the subtree entries matching the key; the whole call fails before
producing a value otherwise. -/
def filterContribution (tree : DeviceTreeNode) (client : Client) (key : List Char)
    (f : List Char) : Int :=
  match parsePath f with
  | .error _ => 0
  | .ok parts =>
    match resolveParts tree (iterparts parts) with
    | .error _ => 0
    | .ok node => keySum key (absEntries client parts node)

/-- Nonnegativity of the counts stored in a subscriber counter. -/
def subsGood (subs : Option (List (Client × Int))) : Bool :=
  match subs with
  | none => true
  | some l => l.all (fun p => 0 ≤ p.2)

mutual

/-- Every subscriber count stored anywhere in the tree is nonnegative. -/
def goodB : DeviceTreeNode → Bool
  | .mk _ subs ch => subsGood subs && goodChildrenOpt ch

/-- Nonnegativity below an optional children dict. -/
def goodChildrenOpt : Option (List (Seg × DeviceTreeNode)) → Bool
  | none => true
  | some l => goodChildrenList l

/-- Nonnegativity below a children list. -/
def goodChildrenList : List (Seg × DeviceTreeNode) → Bool
  | [] => true
  | (_, c) :: rest => goodB c && goodChildrenList rest

end

/-- Key uniqueness of a subscriber counter (automatic for a Python dict). -/
def subsNodup (subs : Option (List (Client × Int))) : Bool :=
  match subs with
  | none => true
  | some l => decide (l.map Prod.fst).Nodup

mutual

/-- Every subscriber counter in the tree has pairwise distinct client keys
(automatic for Python dicts; an invariant of the association list model). -/
def wfB : DeviceTreeNode → Bool
  | .mk _ subs ch => subsNodup subs && wfChildrenOpt ch

/-- Key uniqueness below an optional children dict: the child IDs are
pairwise distinct (automatic for a Python dict) and every child is
well-formed. -/
def wfChildrenOpt : Option (List (Seg × DeviceTreeNode)) → Bool
  | none => true
  | some l => decide (l.map Prod.fst).Nodup && wfChildrenList l

/-- Key uniqueness below a children list. -/
def wfChildrenList : List (Seg × DeviceTreeNode) → Bool
  | [] => true
  | (_, c) :: rest => wfB c && wfChildrenList rest

end

/-- One public operation of the subscription manager. -/
inductive MgrOp where
  | sub (client : Client) (segs : List Seg)
  | unsub (client : Client) (segs : List Seg) (force : Bool)
  | purge (client : Client)

/-- Applying one manager operation to the tree: a raised exception leaves
the tree unchanged (`_subscribe` and `_unsubscribe` mutate only after all
checks, and a resolution failure happens before any mutation). -/
def applyOp (t : DeviceTreeNode) : MgrOp → DeviceTreeNode
  | .sub c segs =>
    match subscribeM t c segs with
    | .ok t2 => t2
    | .error _ => t
  | .unsub c segs force =>
    match unsubscribeM t c segs force with
    | .ok t2 => t2
    | .error _ => t
  | .purge c => purgeClientNode c t

theorem splitSlash_ne_nil (l : List Char) : splitSlash l ≠ [] := by
  cases l with
  | nil => simp [splitSlash]
  | cons c rest =>
    simp only [splitSlash]
    cases h : splitSlash rest with
    | nil => simp
    | cons p ps => by_cases hc : c = '/' <;> simp [hc]

theorem splitSlash_dest (l : List Char) : ∃ p ps, splitSlash l = p :: ps := by
  cases h : splitSlash l with
  | nil => exact absurd h (splitSlash_ne_nil l)
  | cons p ps => exact ⟨p, ps, rfl⟩

theorem splitSlash_cons_of {rest p ps} (c : Char) (h : splitSlash rest = p :: ps) :
    splitSlash (c :: rest) = if c = '/' then [] :: p :: ps else (c :: p) :: ps := by
  simp [splitSlash, h]

theorem splitSlash_slash (l : List Char) : splitSlash ('/' :: l) = [] :: splitSlash l := by
  obtain ⟨p, ps, h⟩ := splitSlash_dest l
  rw [splitSlash_cons_of '/' h, if_pos rfl, h]

theorem splitSlash_head_empty_iff (l : List Char) :
    (splitSlash l).head? = some ([] : List Char) ↔ (l = [] ∨ l.head? = some '/') := by
  cases l with
  | nil => simp [splitSlash]
  | cons c rest =>
    obtain ⟨p, ps, h⟩ := splitSlash_dest rest
    rw [splitSlash_cons_of c h]
    by_cases hc : c = '/' <;> simp [hc]

theorem splitSlash_singleton_iff (l : List Char) : splitSlash l = [l] ↔ '/' ∉ l := by
  induction l with
  | nil => simp [splitSlash]
  | cons c rest ih =>
    obtain ⟨p, ps, h⟩ := splitSlash_dest rest
    rw [splitSlash_cons_of c h]
    by_cases hc : c = '/'
    · subst hc
      simp
    · rw [h] at ih
      simp only [if_neg hc]
      constructor
      · rintro heq
        rw [List.cons.injEq, List.cons.injEq] at heq
        obtain ⟨⟨-, hp⟩, hps⟩ := heq
        have hpr : p :: ps = [rest] := by rw [hp, hps]
        simp only [List.mem_cons]
        push_neg
        exact ⟨fun hh => hc hh.symm, ih.mp hpr⟩
      · intro hmem
        have h2 : p :: ps = [rest] := ih.mpr (by simp at hmem; exact hmem.2)
        rw [List.cons.injEq] at h2
        rw [h2.1, h2.2]

theorem splitSlash_singleton_eq {l p : List Char} (h : splitSlash l = [p]) : p = l := by
  induction l generalizing p with
  | nil =>
    simp [splitSlash] at h
    exact h
  | cons c rest ih =>
    obtain ⟨p', ps', h'⟩ := splitSlash_dest rest
    rw [splitSlash_cons_of c h'] at h
    by_cases hc : c = '/'
    · simp [hc] at h
    · rw [if_neg hc] at h
      rw [List.cons.injEq] at h
      obtain ⟨hp, hps⟩ := h
      have hpr : p' = rest := ih (by rw [h', hps])
      rw [← hp, hpr]

theorem splitSlash_concat_slash (m : List Char) :
    splitSlash (m ++ ['/']) = splitSlash m ++ [[]] := by
  induction m with
  | nil => rfl
  | cons c m ih =>
    obtain ⟨p, ps, h⟩ := splitSlash_dest m
    rw [h] at ih
    have h2 : splitSlash (m ++ ['/']) = p :: (ps ++ [[]]) := by rw [ih]; rfl
    rw [List.cons_append, splitSlash_cons_of c h2, splitSlash_cons_of c h]
    by_cases hc : c = '/' <;> simp [hc]

theorem getLast?_cons_of_ne_nil {c : Char} {rest : List Char} (h : rest ≠ []) :
    (c :: rest).getLast? = rest.getLast? := by
  cases rest with
  | nil => exact absurd rfl h
  | cons x xs => exact List.getLast?_cons_cons

theorem getLast?_ne_slash_of_not_mem {l : List Char} (h : '/' ∉ l) :
    l.getLast? ≠ some '/' := by
  intro hcontra
  obtain ⟨hne, heq⟩ := List.mem_getLast?_eq_getLast hcontra
  exact h (heq ▸ List.getLast_mem hne)

theorem splitSlash_getLast_empty_iff (l : List Char) :
    (splitSlash l).getLast? = some ([] : List Char) ↔ (l = [] ∨ l.getLast? = some '/') := by
  induction l with
  | nil => simp [splitSlash]
  | cons c rest ih =>
    obtain ⟨p, ps, h⟩ := splitSlash_dest rest
    rw [splitSlash_cons_of c h]
    by_cases hc : c = '/'
    · subst hc
      rw [if_pos rfl]
      rw [List.getLast?_cons_cons, ← h, ih]
      cases hr : rest with
      | nil => simp
      | cons x xs =>
        rw [← hr]
        have hrne : rest ≠ [] := by rw [hr]; simp
        rw [getLast?_cons_of_ne_nil hrne]
        simp [hrne]
    · rw [if_neg hc]
      cases hps : ps with
      | nil =>
        rw [hps] at h
        have hpr : p = rest := splitSlash_singleton_eq h
        have hnm : '/' ∉ rest := (splitSlash_singleton_iff rest).mp (hpr ▸ h)
        simp only [List.getLast?_singleton]
        constructor
        · intro hco
          rw [Option.some.injEq] at hco
          exact absurd hco (by simp)
        · intro hco
          rcases hco with hco | hco
          · simp at hco
          · exfalso
            cases hr : rest with
            | nil =>
              rw [hr] at hco
              simp at hco
              exact hc hco
            | cons x xs =>
              have hrne : rest ≠ [] := by rw [hr]; simp
              rw [getLast?_cons_of_ne_nil hrne] at hco
              exact getLast?_ne_slash_of_not_mem hnm hco
      | cons q qs =>
        subst hps
        rw [List.getLast?_cons_cons]
        rw [show (q :: qs).getLast? = (splitSlash rest).getLast? from by
          rw [h, List.getLast?_cons_cons]]
        rw [ih]
        have hrne : rest ≠ [] := by
          intro hr
          rw [hr] at h
          simp [splitSlash] at h
        rw [getLast?_cons_of_ne_nil hrne]
        simp [hrne]

theorem splitSlash_no_slash {l : List Char} :
    ∀ p ∈ splitSlash l, '/' ∉ p := by
  induction l with
  | nil =>
    intro p hp
    simp [splitSlash] at hp
    simp [hp]
  | cons c rest ih =>
    obtain ⟨p', ps', h'⟩ := splitSlash_dest rest
    rw [splitSlash_cons_of c h']
    intro p hp
    by_cases hc : c = '/'
    · rw [if_pos hc] at hp
      rw [List.mem_cons] at hp
      rcases hp with hp | hp
      · simp [hp]
      · exact ih p (h' ▸ hp)
    · rw [if_neg hc] at hp
      rw [List.mem_cons] at hp
      rcases hp with hp | hp
      · rw [hp]
        intro hmem
        rw [List.mem_cons] at hmem
        rcases hmem with hmem | hmem
        · exact hc hmem.symm
        · exact ih p' (by rw [h']; exact List.mem_cons_self p' ps') hmem
      · exact ih p (by rw [h']; exact List.mem_cons_of_mem p' hp)

theorem splitSlash_append_of_no_slash {s l : List Char} {p : List Char}
    {ps : List (List Char)} (hs : '/' ∉ s) (h : splitSlash l = p :: ps) :
    splitSlash (s ++ l) = (s ++ p) :: ps := by
  induction s with
  | nil => simpa using h
  | cons c s ih =>
    have hc : c ≠ '/' := fun hcc => hs (hcc ▸ List.mem_cons_self c s)
    have hs' : '/' ∉ s := fun hmem => hs (List.mem_cons_of_mem c hmem)
    rw [List.cons_append, splitSlash_cons_of c (ih hs'), if_neg hc]
    simp

theorem singleton_slash_prefix_iff (l : List Char) :
    ['/'] <+: l ↔ l.head? = some '/' := by
  cases l with
  | nil => simp
  | cons x xs =>
    rw [List.cons_prefix_cons]
    simp [eq_comm]

theorem doubleSlash_infix_cons (c : Char) (l : List Char) :
    List.IsInfix ['/', '/'] (c :: l) ↔
      (c = '/' ∧ l.head? = some '/') ∨ List.IsInfix ['/', '/'] l := by
  rw [List.infix_cons_iff, List.cons_prefix_cons, singleton_slash_prefix_iff]
  simp [eq_comm]

theorem doubleSlash_infix_concat (m : List Char) :
    List.IsInfix ['/', '/'] (m ++ ['/']) ↔
      List.IsInfix ['/', '/'] m ∨ m.getLast? = some '/' := by
  have h1 : List.IsInfix ['/', '/'] (m ++ ['/']) ↔
      List.IsInfix ['/', '/'] ('/' :: m.reverse) := by
    rw [show ('/' :: m.reverse) = (m ++ ['/']).reverse by simp]
    exact (@List.reverse_infix Char ['/', '/'] (m ++ ['/'])).symm.trans
      (by rw [show (['/', '/'] : List Char).reverse = ['/', '/'] from rfl])
  rw [h1, doubleSlash_infix_cons, List.head?_reverse]
  have h2 : List.IsInfix ['/', '/'] m.reverse ↔ List.IsInfix ['/', '/'] m := by
    rw [show (['/', '/'] : List Char) = (['/', '/'] : List Char).reverse from rfl]
    exact List.reverse_infix
  rw [h2]
  simp [or_comm]

theorem splitSlash_empty_mem (l : List Char) :
    (([] : List Char) ∈ (splitSlash l).drop 1 ↔
      (List.IsInfix ['/', '/'] l ∨ l.getLast? = some '/')) ∧
    (([] : List Char) ∈ splitSlash l ↔
      (l = [] ∨ l.head? = some '/' ∨ List.IsInfix ['/', '/'] l ∨
        l.getLast? = some '/')) := by
  induction l with
  | nil =>
    constructor
    · simp [splitSlash]
    · simp [splitSlash]
  | cons c rest ih =>
    obtain ⟨ihA, ihD⟩ := ih
    obtain ⟨p, ps, h⟩ := splitSlash_dest rest
    by_cases hc : c = '/'
    · subst hc
      have hA : ([] : List Char) ∈ (splitSlash ('/' :: rest)).drop 1 ↔
          (List.IsInfix ['/', '/'] ('/' :: rest) ∨ ('/' :: rest).getLast? = some '/') := by
        rw [splitSlash_slash, List.drop_one, List.tail_cons, ihD, doubleSlash_infix_cons]
        by_cases hrne : rest = []
        · subst hrne
          simp
        · rw [getLast?_cons_of_ne_nil hrne]
          constructor
          · rintro (h1 | h1 | h1 | h1)
            · exact absurd h1 hrne
            · exact Or.inl (Or.inl ⟨rfl, h1⟩)
            · exact Or.inl (Or.inr h1)
            · exact Or.inr h1
          · rintro ((⟨-, h1⟩ | h1) | h1)
            · exact Or.inr (Or.inl h1)
            · exact Or.inr (Or.inr (Or.inl h1))
            · exact Or.inr (Or.inr (Or.inr h1))
      refine ⟨hA, ?_⟩
      rw [splitSlash_slash]
      simp
    · have hsplit := splitSlash_cons_of c h
      rw [if_neg hc] at hsplit
      have hinfx : List.IsInfix ['/', '/'] (c :: rest) ↔ List.IsInfix ['/', '/'] rest := by
        rw [doubleSlash_infix_cons]
        simp [hc]
      have hA : ([] : List Char) ∈ (splitSlash (c :: rest)).drop 1 ↔
          (List.IsInfix ['/', '/'] (c :: rest) ∨ (c :: rest).getLast? = some '/') := by
        rw [hsplit, List.drop_one, List.tail_cons, hinfx]
        have hps : (([] : List Char) ∈ ps) ↔
            (([] : List Char) ∈ (splitSlash rest).drop 1) := by
          rw [h, List.drop_one, List.tail_cons]
        rw [hps, ihA]
        by_cases hrne : rest = []
        · subst hrne
          rw [List.getLast?_singleton]
          constructor
          · rintro (h1 | h1)
            · rw [List.infix_nil] at h1
              simp at h1
            · simp at h1
          · rintro (h1 | h1)
            · rw [List.infix_nil] at h1
              simp at h1
            · rw [Option.some.injEq] at h1
              exact absurd h1 hc
        · rw [getLast?_cons_of_ne_nil hrne]
      refine ⟨hA, ?_⟩
      rw [hsplit]
      have hmem : (([] : List Char) ∈ (c :: p) :: ps) ↔ (([] : List Char) ∈ ps) := by
        simp
      rw [hmem]
      have hps2 : (([] : List Char) ∈ ps) ↔
          (([] : List Char) ∈ (splitSlash (c :: rest)).drop 1) := by
        rw [hsplit, List.drop_one, List.tail_cons]
      rw [hps2, hA]
      constructor
      · exact fun h1 => Or.inr (Or.inr h1)
      · rintro (h1 | h1 | h1 | h1)
        · exact absurd h1 (by simp)
        · rw [List.head?_cons, Option.some.injEq] at h1
          exact absurd h1 hc
        · exact Or.inl h1
        · exact Or.inr h1

theorem parsePath_headfail {l : List Char}
    (h1 : (splitSlash l).head? ≠ some ([] : Seg)) :
    parsePath l = .error .invalidPathSyntax := by
  simp [parsePath, h1]

theorem parsePath_pop_eq {l : List Char}
    (h1 : (splitSlash l).head? = some ([] : Seg))
    (h2 : (splitSlash l).getLast? = some ([] : Seg)) :
    parsePath l = if ([] : Seg) ∈ ((splitSlash l).dropLast).drop 1
      then .error .invalidPathSyntax else .ok ((splitSlash l).dropLast) := by
  simp [parsePath, h1, h2]

theorem parsePath_nopop_eq {l : List Char}
    (h1 : (splitSlash l).head? = some ([] : Seg))
    (h2 : (splitSlash l).getLast? ≠ some ([] : Seg)) :
    parsePath l = if ([] : Seg) ∈ (splitSlash l).drop 1
      then .error .invalidPathSyntax else .ok (splitSlash l) := by
  simp [parsePath, h1, h2]

theorem parsePath_error_iff (l : List Char) :
    parsePath l = .error .invalidPathSyntax ↔
      ((l ≠ [] ∧ l.head? ≠ some '/') ∨ List.IsInfix ['/', '/'] l) := by
  by_cases h1 : (splitSlash l).head? = some ([] : Seg)
  · have hl : l = [] ∨ l.head? = some '/' := (splitSlash_head_empty_iff l).mp h1
    by_cases h2 : (splitSlash l).getLast? = some ([] : Seg)
    · have hl2 : l = [] ∨ l.getLast? = some '/' := (splitSlash_getLast_empty_iff l).mp h2
      by_cases hnil : l = []
      · subst hnil
        constructor
        · intro hcontra
          rw [show parsePath [] = .ok [] from rfl] at hcontra
          cases hcontra
        · rintro (⟨h3, -⟩ | h3)
          · exact absurd rfl h3
          · rw [List.infix_nil] at h3
            cases h3
      · have hend : l.getLast? = some '/' := hl2.resolve_left hnil
        have hml : l.dropLast ++ ['/'] = l :=
          List.dropLast_append_getLast? '/' hend
        have hsplit : splitSlash l = splitSlash l.dropLast ++ [[]] := by
          conv_lhs => rw [← hml]
          exact splitSlash_concat_slash l.dropLast
        rw [parsePath_pop_eq h1 h2]
        rw [hsplit, List.dropLast_concat]
        have hA := (splitSlash_empty_mem l.dropLast).1
        have hinfx : List.IsInfix ['/', '/'] l ↔
            (List.IsInfix ['/', '/'] l.dropLast ∨ l.dropLast.getLast? = some '/') := by
          conv_lhs => rw [← hml]
          exact doubleSlash_infix_concat l.dropLast
        have hhead : ¬(l ≠ [] ∧ l.head? ≠ some '/') := by
          rcases hl with hl | hl
          · exact absurd hl hnil
          · intro hcontra
            exact hcontra.2 hl
        by_cases h3 : ([] : Seg) ∈ (splitSlash l.dropLast).drop 1
        · rw [if_pos h3]
          simp only [true_iff]
          exact Or.inr (hinfx.mpr (hA.mp h3))
        · rw [if_neg h3]
          constructor
          · intro hcontra
            cases hcontra
          · rintro (hcontra | hcontra)
            · exact absurd hcontra hhead
            · exact absurd (hA.mpr (hinfx.mp hcontra)) h3
    · have hnil : l ≠ [] := by
        intro hcontra
        subst hcontra
        exact h2 rfl
      have hend : l.getLast? ≠ some '/' := by
        intro hcontra
        exact h2 ((splitSlash_getLast_empty_iff l).mpr (Or.inr hcontra))
      have hA := (splitSlash_empty_mem l).1
      rw [parsePath_nopop_eq h1 h2]
      have hhead : ¬(l ≠ [] ∧ l.head? ≠ some '/') := by
        rcases hl with hl | hl
        · exact absurd hl hnil
        · intro hcontra
          exact hcontra.2 hl
      by_cases h3 : ([] : Seg) ∈ (splitSlash l).drop 1
      · rw [if_pos h3]
        simp only [true_iff]
        rcases hA.mp h3 with h4 | h4
        · exact Or.inr h4
        · exact absurd h4 hend
      · rw [if_neg h3]
        constructor
        · intro hcontra
          cases hcontra
        · rintro (hcontra | hcontra)
          · exact absurd hcontra hhead
          · exact absurd (hA.mpr (Or.inl hcontra)) h3
  · rw [parsePath_headfail h1]
    have hl : ¬(l = [] ∨ l.head? = some '/') :=
      fun hcontra => h1 ((splitSlash_head_empty_iff l).mpr hcontra)
    push_neg at hl
    simp only [true_iff]
    exact Or.inl hl

theorem parsePath_ok_dest {l : List Char} {p : List Seg} (h : parsePath l = .ok p) :
    (splitSlash l).head? = some ([] : Seg) ∧ ([] : Seg) ∉ p.drop 1 ∧
      (p = (splitSlash l).dropLast ∨ p = splitSlash l) := by
  by_cases h1 : (splitSlash l).head? = some ([] : Seg)
  · by_cases h2 : (splitSlash l).getLast? = some ([] : Seg)
    · rw [parsePath_pop_eq h1 h2] at h
      by_cases h3 : ([] : Seg) ∈ ((splitSlash l).dropLast).drop 1
      · rw [if_pos h3] at h
        cases h
      · rw [if_neg h3] at h
        injection h with h
        exact ⟨h1, h ▸ h3, Or.inl h.symm⟩
    · rw [parsePath_nopop_eq h1 h2] at h
      by_cases h3 : ([] : Seg) ∈ (splitSlash l).drop 1
      · rw [if_pos h3] at h
        cases h
      · rw [if_neg h3] at h
        injection h with h
        exact ⟨h1, h ▸ h3, Or.inr h.symm⟩
  · rw [parsePath_headfail h1] at h
    cases h

theorem parsePath_ok_shape {l : List Char} {p : List Seg} (h : parsePath l = .ok p) :
    p = [] ∨ ∃ segs, p = ([] : Seg) :: segs := by
  obtain ⟨h1, -, hp⟩ := parsePath_ok_dest h
  obtain ⟨q, qs, hq⟩ := splitSlash_dest l
  rw [hq, List.head?_cons, Option.some.injEq] at h1
  subst h1
  rcases hp with hp | hp
  · rw [hq] at hp
    cases qs with
    | nil =>
      left
      simpa using hp
    | cons r rs =>
      right
      rw [List.dropLast_cons₂] at hp
      exact ⟨(r :: rs).dropLast, hp⟩
  · right
    exact ⟨qs, by rw [hp, hq]⟩

theorem parsePath_ok_no_slash {l : List Char} {p : List Seg}
    (h : parsePath l = .ok p) : ∀ s ∈ p, '/' ∉ s := by
  obtain ⟨-, -, hp⟩ := parsePath_ok_dest h
  intro s hs
  apply splitSlash_no_slash s
  rcases hp with hp | hp
  · exact (List.dropLast_sublist (splitSlash l)).subset (hp ▸ hs)
  · exact hp ▸ hs

theorem parsePath_concat_slash {l : List Char} {p : List Seg}
    (hend : l.getLast? ≠ some '/') (h : parsePath l = .ok p) :
    ∃ q, parsePath (l ++ ['/']) = .ok q ∧ iterparts q = iterparts p ∧
      joinSlash q = joinSlash p := by
  by_cases hnil : l = []
  · subst hnil
    have hp : p = [] := by
      rw [show parsePath [] = .ok ([] : List Seg) from rfl] at h
      injection h with h
      exact h.symm
    subst hp
    exact ⟨[[]], rfl, rfl, rfl⟩
  · have h1 : (splitSlash l).head? = some ([] : Seg) := (parsePath_ok_dest h).1
    have h2 : (splitSlash l).getLast? ≠ some ([] : Seg) := by
      intro hcontra
      rcases (splitSlash_getLast_empty_iff l).mp hcontra with h3 | h3
      · exact hnil h3
      · exact hend h3
    rw [parsePath_nopop_eq h1 h2] at h
    by_cases h3 : ([] : Seg) ∈ (splitSlash l).drop 1
    · rw [if_pos h3] at h
      cases h
    · rw [if_neg h3] at h
      injection h with h
      subst h
      have hsplit : splitSlash (l ++ ['/']) = splitSlash l ++ [[]] :=
        splitSlash_concat_slash l
      have hq : parsePath (l ++ ['/']) = .ok (splitSlash l) := by
        rw [parsePath_pop_eq
          (by rw [hsplit, List.head?_append_of_ne_nil _ (splitSlash_ne_nil l)]; exact h1)
          (by rw [hsplit, List.getLast?_concat])]
        rw [hsplit, List.dropLast_concat, if_neg h3]
      exact ⟨splitSlash l, hq, rfl, rfl⟩

theorem splitSlash_join_core (rest : List Seg) : ∀ (s : Seg), '/' ∉ s →
    (∀ x ∈ rest, '/' ∉ x) →
    splitSlash (joinSlash (s :: rest)) = s :: rest := by
  induction rest with
  | nil =>
    intro s hs _
    rw [show joinSlash [s] = s from rfl]
    exact (splitSlash_singleton_iff s).mpr hs
  | cons s2 r2 ih =>
    intro s hs hrest
    have hr : splitSlash (joinSlash (s2 :: r2)) = s2 :: r2 :=
      ih s2 (hrest s2 (List.mem_cons_self s2 r2))
        (fun x hx => hrest x (List.mem_cons_of_mem _ hx))
    rw [show joinSlash (s :: s2 :: r2) = s ++ ('/' :: joinSlash (s2 :: r2)) from rfl]
    have h2 : splitSlash ('/' :: joinSlash (s2 :: r2)) = [] :: s2 :: r2 := by
      rw [splitSlash_slash, hr]
    rw [splitSlash_append_of_no_slash hs h2]
    simp

theorem splitSlash_joinSlash {segs : List Seg} (hsl : ∀ x ∈ segs, '/' ∉ x)
    (hne : segs ≠ []) :
    splitSlash (joinSlash (([] : Seg) :: segs)) = [] :: segs := by
  cases segs with
  | nil => exact absurd rfl hne
  | cons s rest =>
    rw [show joinSlash ([] :: s :: rest) = '/' :: joinSlash (s :: rest) from rfl]
    rw [splitSlash_slash]
    rw [splitSlash_join_core rest s (hsl s (List.mem_cons_self s rest))
      (fun x hx => hsl x (List.mem_cons_of_mem _ hx))]

/-- C5, counterexample: the claim states that `Parse` fails with
`InvalidPathSyntax` on every input that does not start with `'/'`; the empty
string does not start with `'/'`, yet the `path` setter accepts it (its
first `split` part is the empty string, so the leading-slash check passes
vacuously) and stores an empty part list. -/
theorem C5_counterexample :
    parsePath [] = .ok [] ∧ ¬ ([] : List Char).head? = some '/' :=
  ⟨rfl, by decide⟩

/-- C5, amended: for every input string, `Parse` fails with
`InvalidPathSyntax` exactly when the input is nonempty and does not start
with `'/'`, or contains two consecutive slashes (an empty interior segment,
including one produced by a trailing `"//"`); the empty string is accepted.
A string with a single trailing `'/'` after a path that parses is accepted
and yields a path with the same segments and the same canonical string. -/
theorem C5_amended :
    (∀ l : List Char, parsePath l = .error .invalidPathSyntax ↔
        ((l ≠ [] ∧ l.head? ≠ some '/') ∨ List.IsInfix ['/', '/'] l)) ∧
    (∀ (l : List Char) (p : List Seg), l.getLast? ≠ some '/' →
        parsePath l = .ok p →
        ∃ q, parsePath (l ++ ['/']) = .ok q ∧ iterparts q = iterparts p ∧
          joinSlash q = joinSlash p) :=
  ⟨parsePath_error_iff, fun _ _ h1 h2 => parsePath_concat_slash h1 h2⟩

/-- C5, witness: the trailing-slash clause of `C5_amended` evaluated at
`"/a"`, giving the acceptance and normalization of `"/a/"`. -/
theorem C5_witness :
    ∃ q, parsePath (['/', 'a'] ++ ['/']) = .ok q ∧
      iterparts q = iterparts [[], ['a']] ∧
      joinSlash q = joinSlash [[], ['a']] :=
  C5_amended.2 ['/', 'a'] [[], ['a']] (by decide) rfl

/-- C6, counterexample: the claim states that the canonical string of the
empty (root) path is exactly `"/"`; parsing `"/"` stores the part list
`[""]`, and `"/".join([""])` is the empty string, not `"/"`. -/
theorem C6_counterexample :
    parsePath ['/'] = .ok [[]] ∧ joinSlash [[]] = [] ∧ ([] : List Char) ≠ ['/'] :=
  ⟨rfl, rfl, by decide⟩

/-- C6, amended: for every path obtained from a successful `Parse`, the
canonical string form is the segments joined by `'/'` and prefixed with
`'/'` when there is at least one segment, and it is the empty string (not
`"/"`) for the empty root path. -/
theorem C6_amended : ∀ (l : List Char) (p : List Seg), parsePath l = .ok p →
    joinSlash p = if iterparts p = [] then [] else '/' :: joinSlash (iterparts p) := by
  intro l p h
  rcases parsePath_ok_shape h with hp | ⟨segs, hp⟩
  · subst hp
    rfl
  · subst hp
    cases segs with
    | nil => rfl
    | cons s rest => rfl

/-- C6, witness: `C6_amended` evaluated at `"/a/b"`. -/
theorem C6_witness :
    joinSlash [[], ['a'], ['b']] =
      if iterparts [[], ['a'], ['b']] = [] then []
      else '/' :: joinSlash (iterparts [[], ['a'], ['b']]) :=
  C6_amended ['/', 'a', '/', 'b'] [[], ['a'], ['b']] rfl

/-- C7: for every path obtained from a successful `Parse`, re-parsing its
canonical string succeeds and yields a path with the same segment sequence
and the same canonical string (round-trip; the root path `"/"` re-parses to
the empty part list, which has the same (empty) segments and the same
(empty) canonical string). -/
theorem C7_round_trip : ∀ (l : List Char) (p : List Seg), parsePath l = .ok p →
    ∃ q, parsePath (joinSlash p) = .ok q ∧ iterparts q = iterparts p ∧
      joinSlash q = joinSlash p := by
  intro l p h
  rcases parsePath_ok_shape h with hp | ⟨segs, hp⟩
  · subst hp
    exact ⟨[], rfl, rfl, rfl⟩
  · subst hp
    cases segs with
    | nil => exact ⟨[], rfl, rfl, rfl⟩
    | cons s rest =>
      have hno := (parsePath_ok_dest h).2.1
      rw [List.drop_one, List.tail_cons] at hno
      have hne : ∀ x ∈ s :: rest, x ≠ ([] : Seg) := by
        intro x hx hxe
        exact hno (hxe ▸ hx)
      have hsl : ∀ x ∈ s :: rest, '/' ∉ x := fun x hx =>
        parsePath_ok_no_slash h x (List.mem_cons_of_mem _ hx)
      have hsplit : splitSlash (joinSlash ([] :: s :: rest)) = [] :: s :: rest :=
        splitSlash_joinSlash hsl (by simp)
      have hlast : ((([] : Seg) :: s :: rest)).getLast? ≠ some ([] : Seg) := by
        rw [List.getLast?_cons_cons]
        intro hcontra
        obtain ⟨hne2, heq⟩ := List.mem_getLast?_eq_getLast hcontra
        exact hne _ (heq ▸ List.getLast_mem hne2) rfl
      have hq : parsePath (joinSlash ([] :: s :: rest)) = .ok ([] :: s :: rest) := by
        rw [parsePath_nopop_eq (by rw [hsplit]; rfl) (by rw [hsplit]; exact hlast)]
        rw [hsplit, if_neg (by rw [List.drop_one, List.tail_cons]; exact hno)]
      exact ⟨[] :: s :: rest, hq, rfl, rfl⟩

/-- C7, witness: `C7_round_trip` evaluated at `"/a/b"`. -/
theorem C7_witness :
    ∃ q, parsePath (joinSlash [[], ['a'], ['b']]) = .ok q ∧
      iterparts q = iterparts [[], ['a'], ['b']] ∧
      joinSlash q = joinSlash [[], ['a'], ['b']] :=
  C7_round_trip ['/', 'a', '/', 'b'] [[], ['a'], ['b']] rfl

/-- C2: resolving a path that descends into a node whose `children`
attribute was never created — a fresh root that never had a child, or a
channel leaf — raises an uncaught Python `AttributeError` instead of
`NoSuchPathError`, although the docstring of `DeviceTree.resolve` promises
`NoSuchPathError` whenever the path cannot be resolved; only the `KeyError`
of a missing key in an existing `children` dict is converted (third
conjunct), and the subscription manager operations propagate the same
uncaught error. -/
theorem C2_attribute_error :
    resolveParts (.mk .root none none) [['x']] = .error .attributeError ∧
    resolveParts (.mk .root none (some [(['c'], .mk .channel none none)]))
      [['c'], ['x']] = .error .attributeError ∧
    resolveParts (.mk .root none (some [])) [['x']] = .error .noSuchPath ∧
    subscribeM (.mk .root none none) 1 [['x']] = .error .attributeError ∧
    unsubscribeM (.mk .root none none) 1 [['x']] false = .error .attributeError ∧
    list_subscriptions (.mk .root none none) 1 (some [['/', 'x']])
      = .error .attributeError ∧
    DTError.attributeError ≠ DTError.noSuchPath :=
  ⟨rfl, rfl, rfl, rfl, rfl, rfl, by decide⟩

/-- C4: re-adding the very same UAV object to the registry leaves the
entries unchanged but sends the `added` signal a second time (second
conjunct), although the docstring of `UAVRegistry.add` states the call is a
no-op for an already registered UAV; the re-emitted event makes the wiring
attach the vehicle node a second time, which raises `DuplicateChildId`
(fourth conjunct).  Adding a different UAV object under the same ID fails
with `KeyError` as claimed (third conjunct). -/
theorem C4_readd_emits_added :
    uavRegistryAdd ⟨[], []⟩ ⟨0, ['V']⟩
      = .ok ⟨[(['V'], ⟨0, ['V']⟩)], [⟨0, ['V']⟩]⟩ ∧
    uavRegistryAdd ⟨[(['V'], ⟨0, ['V']⟩)], [⟨0, ['V']⟩]⟩ ⟨0, ['V']⟩
      = .ok ⟨[(['V'], ⟨0, ['V']⟩)], [⟨0, ['V']⟩, ⟨0, ['V']⟩]⟩ ∧
    uavRegistryAdd ⟨[(['V'], ⟨0, ['V']⟩)], [⟨0, ['V']⟩]⟩ ⟨1, ['V']⟩
      = .error .keyError ∧
    on_uav_added (.mk .root none (some [(['V'], .mk .uav none none)]))
      ⟨0, ['V']⟩ (.mk .uav none none) = .error .duplicateChildId :=
  ⟨rfl, rfl, rfl, rfl⟩

theorem traverseAux_append (a b : List (Option Seg × DeviceTreeNode)) :
    traverseAux (a ++ b) = traverseAux a ++ traverseAux b := by
  induction a using traverseAux.induct with
  | case1 => simp [traverseAux]
  | case2 i n rest ih =>
    have h1 : traverseAux ((i, n) :: rest) =
        (i, n) :: traverseAux
          ((((n.iterchildren).reverse.map (fun p => (some p.1, p.2))) ++ rest)) := by
      simp only [traverseAux]
    have h2 : traverseAux ((i, n) :: (rest ++ b)) =
        (i, n) :: traverseAux
          ((((n.iterchildren).reverse.map (fun p => (some p.1, p.2))) ++ rest) ++ b) := by
      simp only [traverseAux, List.append_assoc]
    rw [List.cons_append, h2, ih, h1, List.cons_append]

theorem traverseAux_flatten (l : List (Option Seg × DeviceTreeNode)) :
    traverseAux l = (l.map (fun e => traverseAux [e])).flatten := by
  induction l with
  | nil => simp [traverseAux]
  | cons e rest ih =>
    have h : e :: rest = [e] ++ rest := rfl
    rw [h, traverseAux_append, ih]
    simp

/-- C3, counterexample: a root with two children inserted as `"a"` then
`"b"` is traversed root first and then `"b"`'s subtree before `"a"`'s — the
stack-based generator pops the most recently pushed child, so children are
visited in reverse insertion order, not insertion order as claimed. -/
theorem C3_counterexample :
    (treeTraverseDfs (.mk .root none
        (some [(['a'], .mk .uav none none), (['b'], .mk .uav none none)]))).map
          Prod.fst = [none, some ['b'], some ['a']] ∧
    ([none, some ['b'], some ['a']] : List (Option Seg))
      ≠ [none, some ['a'], some ['b']] := by
  constructor
  · simp [treeTraverseDfs, DeviceTreeNode.traverse_dfs, traverseAux,
      DeviceTreeNode.iterchildren, DeviceTreeNode.children]
  · decide

/-- C3, amended: `traverse_dfs` yields the node itself first (with the
given own ID), followed by the complete traversal of each child recursively
in pre-order, visiting the children of each node in the reverse of the
parent's insertion order; being a function of the tree state, the traversal
order used by `PurgeClient` is deterministic. -/
theorem C3_amended : ∀ (own : Option Seg) (n : DeviceTreeNode),
    n.traverse_dfs own =
      (own, n) :: (((n.iterchildren).reverse.map
        (fun p => DeviceTreeNode.traverse_dfs p.2 (some p.1))).flatten) := by
  intro own n
  rw [DeviceTreeNode.traverse_dfs]
  rw [show traverseAux [(own, n)] = (own, n) :: traverseAux
    ((((n.iterchildren).reverse.map (fun p => (some p.1, p.2))) ++ [])) from by
      simp only [traverseAux]]
  rw [List.append_nil, traverseAux_flatten, List.map_map]
  rfl

section AssocLemmas

variable {α β : Type} [DecidableEq α]

theorem assocLookup_set_self (l : List (α × β)) (k : α) (v : β) :
    assocLookup (assocSet l k v) k = some v := by
  induction l with
  | nil => simp [assocSet, assocLookup]
  | cons a rest ih =>
    obtain ⟨k', v'⟩ := a
    by_cases h : k' = k
    · simp [assocSet, assocLookup, h]
    · simp [assocSet, assocLookup, h, ih]

theorem assocLookup_set_other (l : List (α × β)) (k k' : α) (v : β) (h : k' ≠ k) :
    assocLookup (assocSet l k v) k' = assocLookup l k' := by
  have hk : ¬k = k' := fun hh => h hh.symm
  induction l with
  | nil => simp [assocSet, assocLookup, hk]
  | cons a rest ih =>
    obtain ⟨k2, v2⟩ := a
    by_cases h2 : k2 = k
    · subst h2
      simp [assocSet, assocLookup, hk]
    · simp only [assocSet, if_neg h2]
      by_cases h3 : k2 = k'
      · simp [assocLookup, h3]
      · simp [assocLookup, h3, ih]

theorem assocLookup_mem {l : List (α × β)} {k : α} {v : β}
    (h : assocLookup l k = some v) : (k, v) ∈ l := by
  induction l with
  | nil => simp [assocLookup] at h
  | cons a rest ih =>
    obtain ⟨k', v'⟩ := a
    by_cases h2 : k' = k
    · subst h2
      rw [assocLookup, if_pos rfl, Option.some.injEq] at h
      subst h
      exact List.mem_cons_self _ _
    · rw [assocLookup, if_neg h2] at h
      exact List.mem_cons_of_mem _ (ih h)

theorem mem_assocSet {l : List (α × β)} {k : α} {v : β} {x : α × β}
    (h : x ∈ assocSet l k v) : x = (k, v) ∨ x ∈ l := by
  induction l with
  | nil => simpa [assocSet] using h
  | cons a rest ih =>
    obtain ⟨k', v'⟩ := a
    by_cases h2 : k' = k
    · rw [assocSet, if_pos h2] at h
      rw [List.mem_cons] at h
      rcases h with h | h
      · subst h2
        exact Or.inl h
      · exact Or.inr (List.mem_cons_of_mem _ h)
    · rw [assocSet, if_neg h2] at h
      rw [List.mem_cons] at h
      rcases h with h | h
      · exact Or.inr (h ▸ List.mem_cons_self _ _)
      · rcases ih h with h3 | h3
        · exact Or.inl h3
        · exact Or.inr (List.mem_cons_of_mem _ h3)

theorem mem_assocErase {l : List (α × β)} {k : α} {x : α × β}
    (h : x ∈ assocErase l k) : x ∈ l := by
  induction l with
  | nil => simp [assocErase] at h
  | cons a rest ih =>
    obtain ⟨k', v'⟩ := a
    by_cases h2 : k' = k
    · rw [assocErase, if_pos h2] at h
      exact List.mem_cons_of_mem _ h
    · rw [assocErase, if_neg h2] at h
      rw [List.mem_cons] at h
      rcases h with h | h
      · exact h ▸ List.mem_cons_self _ _
      · exact List.mem_cons_of_mem _ (ih h)

theorem assocLookup_erase_other (l : List (α × β)) (k k' : α) (h : k' ≠ k) :
    assocLookup (assocErase l k) k' = assocLookup l k' := by
  induction l with
  | nil => simp [assocErase]
  | cons a rest ih =>
    obtain ⟨k2, v2⟩ := a
    by_cases h2 : k2 = k
    · subst h2
      rw [assocErase, if_pos rfl, assocLookup, if_neg (fun hh => h hh.symm)]
    · rw [assocErase, if_neg h2]
      by_cases h3 : k2 = k'
      · simp [assocLookup, h3]
      · simp [assocLookup, h3, ih]

theorem assocLookup_erase_self {l : List (α × β)} {k : α}
    (h : (l.map Prod.fst).Nodup) : assocLookup (assocErase l k) k = none := by
  induction l with
  | nil => simp [assocErase, assocLookup]
  | cons a rest ih =>
    obtain ⟨k', v'⟩ := a
    rw [List.map_cons, List.nodup_cons] at h
    by_cases h2 : k' = k
    · subst h2
      rw [assocErase, if_pos rfl]
      cases hl : assocLookup rest k' with
      | none => rfl
      | some v2 =>
        exact absurd (List.mem_map_of_mem Prod.fst (assocLookup_mem hl)) h.1
    · rw [assocErase, if_neg h2, assocLookup, if_neg h2]
      exact ih h.2

theorem assocErase_eq_nil {l : List (α × β)} {k : α}
    (h : assocErase l k = []) : l = [] ∨ ∃ v, l = [(k, v)] := by
  cases l with
  | nil => exact Or.inl rfl
  | cons a rest =>
    obtain ⟨k', v'⟩ := a
    by_cases h2 : k' = k
    · subst h2
      rw [assocErase, if_pos rfl] at h
      subst h
      exact Or.inr ⟨v', rfl⟩
    · rw [assocErase, if_neg h2] at h
      cases h

theorem assocSet_ne_nil (l : List (α × β)) (k : α) (v : β) :
    assocSet l k v ≠ [] := by
  cases l with
  | nil => simp [assocSet]
  | cons a rest =>
    obtain ⟨k', v'⟩ := a
    by_cases h : k' = k <;> simp [assocSet, h]

end AssocLemmas

theorem counterGet_set_self {α : Type} [DecidableEq α]
    (l : List (α × Int)) (k : α) (v : Int) :
    counterGet (assocSet l k v) k = v := by
  rw [counterGet, assocLookup_set_self]
  rfl

theorem counterGet_set_other {α : Type} [DecidableEq α]
    (l : List (α × Int)) (k k' : α) (v : Int)
    (h : k' ≠ k) : counterGet (assocSet l k v) k' = counterGet l k' := by
  rw [counterGet, assocLookup_set_other l k k' v h, counterGet]

theorem counterGet_erase_other {α : Type} [DecidableEq α]
    (l : List (α × Int)) (k k' : α)
    (h : k' ≠ k) : counterGet (assocErase l k) k' = counterGet l k' := by
  rw [counterGet, assocLookup_erase_other l k k' h, counterGet]

theorem countOfSubs_eq_getD (subs : Option (List (Client × Int))) (c : Client) :
    countOfSubs subs c = counterGet (subs.getD []) c := by
  cases subs with
  | none => rfl
  | some l =>
    cases l with
    | nil => rfl
    | cons a rest => rfl

/-- The place a client's entry occupies in a node's subscriber counter:
`none` when the counter is absent or holds no entry for the client, and the
stored count otherwise. -/
def subscriberEntry (n : DeviceTreeNode) (c : Client) : Option Int :=
  match n.subscribers with
  | none => none
  | some l => assocLookup l c

theorem subscribers_setSubscribers (n : DeviceTreeNode) (s) :
    (n.setSubscribers s).subscribers = s := by
  obtain ⟨t, s0, ch⟩ := n
  rfl

theorem children_setSubscribers (n : DeviceTreeNode) (s) :
    (n.setSubscribers s).children = n.children := by
  obtain ⟨t, s0, ch⟩ := n
  rfl

theorem children_setChildren (n : DeviceTreeNode) (ch) :
    (n.setChildren ch).children = ch := by
  obtain ⟨t, s0, ch0⟩ := n
  rfl

theorem count_subscribe_self (n : DeviceTreeNode) (c : Client) :
    (n.subscribe c).count_subscriptions_of c = n.count_subscriptions_of c + 1 := by
  rw [DeviceTreeNode.subscribe, DeviceTreeNode.count_subscriptions_of,
    subscribers_setSubscribers, DeviceTreeNode.count_subscriptions_of,
    countOfSubs_eq_getD, countOfSubs_eq_getD]
  simp only [Option.getD_some]
  rw [counterGet_set_self]

theorem children_subscribe (n : DeviceTreeNode) (c : Client) :
    (n.subscribe c).children = n.children := by
  rw [DeviceTreeNode.subscribe, children_setSubscribers]

theorem unsubscribe_false_pos {n : DeviceTreeNode} {c : Client}
    (h : 0 < n.count_subscriptions_of c) :
    ∃ n', n.unsubscribe c false = .ok n' ∧
      n'.count_subscriptions_of c = n.count_subscriptions_of c - 1 ∧
      n'.children = n.children ∧
      subscriberEntry n' c = some (n.count_subscriptions_of c - 1) := by
  rw [DeviceTreeNode.unsubscribe, if_pos h]
  refine ⟨_, rfl, ?_, children_setSubscribers _ _, ?_⟩
  · rw [DeviceTreeNode.count_subscriptions_of, subscribers_setSubscribers,
      countOfSubs]
    rw [if_neg (by simp [List.isEmpty_iff, assocSet_ne_nil])]
    rw [counterGet_set_self, DeviceTreeNode.count_subscriptions_of,
      countOfSubs_eq_getD]
  · rw [subscriberEntry, subscribers_setSubscribers]
    show assocLookup (assocSet (n.subscribers.getD []) c
      (counterGet (n.subscribers.getD []) c - 1)) c = _
    rw [assocLookup_set_self, DeviceTreeNode.count_subscriptions_of,
      countOfSubs_eq_getD]

theorem unsubscribe_false_zero {n : DeviceTreeNode} {c : Client}
    (h : ¬ 0 < n.count_subscriptions_of c) :
    n.unsubscribe c false = .error .keyError := by
  rw [DeviceTreeNode.unsubscribe, if_neg h]
  rfl

theorem unsubscribe_force_eq (n : DeviceTreeNode) (c : Client) :
    n.unsubscribe c true = .ok (n.setSubscribers (purgeSubs c n.subscribers)) := by
  obtain ⟨t, subs, ch⟩ := n
  cases subs with
  | none =>
    rw [DeviceTreeNode.unsubscribe,
      if_neg (by rw [DeviceTreeNode.count_subscriptions_of]; simp [countOfSubs,
        DeviceTreeNode.subscribers])]
    rfl
  | some l =>
    rw [DeviceTreeNode.unsubscribe]
    by_cases h : 0 < (DeviceTreeNode.mk t (some l) ch).count_subscriptions_of c
    · rw [if_pos h]
      rw [show purgeSubs c (DeviceTreeNode.mk t (some l) ch).subscribers
          = some (assocErase l c) from by
        rw [DeviceTreeNode.subscribers, purgeSubs]
        rw [if_pos (by
          rw [DeviceTreeNode.count_subscriptions_of,
            DeviceTreeNode.subscribers, countOfSubs] at h
          exact h)]]
      rfl
    · rw [if_neg h]
      rw [show purgeSubs c (DeviceTreeNode.mk t (some l) ch).subscribers
          = some l from by
        rw [DeviceTreeNode.subscribers, purgeSubs]
        rw [if_neg (by
          rw [DeviceTreeNode.count_subscriptions_of,
            DeviceTreeNode.subscribers, countOfSubs] at h
          exact h)]]
      rfl

theorem modifyAt_ok {f : DeviceTreeNode → Except DTError DeviceTreeNode} :
    ∀ {segs : List Seg} {t m m' : DeviceTreeNode},
    resolveParts t segs = .ok m → f m = .ok m' →
    ∃ t', modifyAtParts f t segs = .ok t' ∧ resolveParts t' segs = .ok m' := by
  intro segs
  induction segs with
  | nil =>
    intro t m m' hres hf
    rw [resolveParts, Except.ok.injEq] at hres
    subst hres
    exact ⟨m', by rw [modifyAtParts]; exact hf, rfl⟩
  | cons p rest ih =>
    intro t m m' hres hf
    rw [resolveParts] at hres
    cases hch : t.children with
    | none => rw [hch] at hres; cases hres
    | some ch =>
      simp only [hch] at hres
      cases hlk : assocLookup ch p with
      | none =>
        simp only [hlk] at hres
        cases hres
      | some c =>
        simp only [hlk] at hres
        obtain ⟨c', hc1, hc2⟩ := ih hres hf
        refine ⟨t.setChildren (some (assocSet ch p c')), ?_, ?_⟩
        · simp only [modifyAtParts, hch, hlk, hc1]
        · simp only [resolveParts, children_setChildren, assocLookup_set_self]
          exact hc2

theorem modifyAt_error {f : DeviceTreeNode → Except DTError DeviceTreeNode}
    {e : DTError} :
    ∀ {segs : List Seg} {t m : DeviceTreeNode},
    resolveParts t segs = .ok m → f m = .error e →
    modifyAtParts f t segs = .error e := by
  intro segs
  induction segs with
  | nil =>
    intro t m hres hf
    rw [resolveParts, Except.ok.injEq] at hres
    subst hres
    rw [modifyAtParts]
    exact hf
  | cons p rest ih =>
    intro t m hres hf
    rw [resolveParts] at hres
    cases hch : t.children with
    | none => rw [hch] at hres; cases hres
    | some ch =>
      simp only [hch] at hres
      cases hlk : assocLookup ch p with
      | none =>
        simp only [hlk] at hres
        cases hres
      | some c =>
        simp only [hlk] at hres
        simp only [modifyAtParts, hch, hlk, ih hres hf]

/-- `k` successive `Subscribe` calls of the same client on the same path. -/
def subsK (client : Client) (segs : List Seg) : Nat → DeviceTreeNode →
    Except DTError DeviceTreeNode
  | 0, t => .ok t
  | Nat.succ k, t =>
    match subscribeM t client segs with
    | .error e => .error e
    | .ok t2 => subsK client segs k t2

/-- `k` successive non-forced `Unsubscribe` calls of the same client on the
same path. -/
def unsubsK (client : Client) (segs : List Seg) : Nat → DeviceTreeNode →
    Except DTError DeviceTreeNode
  | 0, t => .ok t
  | Nat.succ k, t =>
    match unsubscribeM t client segs false with
    | .error e => .error e
    | .ok t2 => unsubsK client segs k t2

theorem subsK_count {client : Client} {segs : List Seg} :
    ∀ (k : Nat) {t m : DeviceTreeNode}, resolveParts t segs = .ok m →
    ∃ t1 m1, subsK client segs k t = .ok t1 ∧ resolveParts t1 segs = .ok m1 ∧
      m1.count_subscriptions_of client
        = m.count_subscriptions_of client + (k : Int) := by
  intro k
  induction k with
  | zero =>
    intro t m hres
    exact ⟨t, m, rfl, hres, by simp⟩
  | succ k ih =>
    intro t m hres
    obtain ⟨t2, h2, hres2⟩ := @modifyAt_ok (fun n => .ok (n.subscribe client))
      _ _ _ _ hres rfl
    obtain ⟨t1, m1, h3, h4, h5⟩ := ih hres2
    refine ⟨t1, m1, ?_, h4, ?_⟩
    · rw [subsK, show subscribeM t client segs = .ok t2 from h2]
      exact h3
    · rw [h5, count_subscribe_self]
      push_cast
      ring

theorem unsubsK_count {client : Client} {segs : List Seg} :
    ∀ (k : Nat) {t m : DeviceTreeNode}, resolveParts t segs = .ok m →
    m.count_subscriptions_of client = (k : Int) →
    ∃ t2 m2, unsubsK client segs k t = .ok t2 ∧ resolveParts t2 segs = .ok m2 ∧
      m2.count_subscriptions_of client = 0 := by
  intro k
  induction k with
  | zero =>
    intro t m hres hcount
    exact ⟨t, m, rfl, hres, by simpa using hcount⟩
  | succ k ih =>
    intro t m hres hcount
    have hpos : 0 < m.count_subscriptions_of client := by
      rw [hcount]
      positivity
    obtain ⟨m', hm1, hm2, -, -⟩ := unsubscribe_false_pos hpos
    obtain ⟨t2, h2, hres2⟩ := modifyAt_ok hres hm1
    have hcount2 : m'.count_subscriptions_of client = (k : Int) := by
      rw [hm2, hcount]
      push_cast
      ring
    obtain ⟨t3, m3, h3, h4, h5⟩ := ih hres2 hcount2
    refine ⟨t3, m3, ?_, h4, h5⟩
    rw [unsubsK]
    rw [show unsubscribeM t client segs false = .ok t2 from by
      rw [unsubscribeM, h2]]
    exact h3

/-- C8: from a state in which the client is not subscribed at the resolved
node, subscribing `k ≥ 1` times and unsubscribing `k` times (non-forced) on
a resolvable path all succeeds and leaves the node's `SubscriberCount` for
the client at `0`, and a `(k+1)`-th non-forced `Unsubscribe` fails with
`NotSubscribed` (in this functional model a failing call returns only the
error and no tree, mirroring that `_unsubscribe` raises before mutating
anything). -/
theorem C8_subscribe_unsubscribe :
    ∀ (t m : DeviceTreeNode) (client : Client) (segs : List Seg) (k : Nat),
      1 ≤ k → resolveParts t segs = .ok m →
      m.count_subscriptions_of client = 0 →
      ∃ t1 t2 m2, subsK client segs k t = .ok t1 ∧
        unsubsK client segs k t1 = .ok t2 ∧
        resolveParts t2 segs = .ok m2 ∧
        m2.count_subscriptions_of client = 0 ∧
        unsubscribeM t2 client segs false = .error .notSubscribed := by
  intro t m client segs k hk hres hcount
  obtain ⟨t1, m1, h1, h2, h3⟩ := subsK_count k hres
  rw [hcount, zero_add] at h3
  obtain ⟨t2, m2, h4, h5, h6⟩ := unsubsK_count k h2 h3
  refine ⟨t1, t2, m2, h1, h4, h5, h6, ?_⟩
  have hfail : m2.unsubscribe client false = .error .keyError :=
    unsubscribe_false_zero (by rw [h6]; simp)
  rw [unsubscribeM, modifyAt_error h5 hfail]

/-- C8, witness: the theorem evaluated on a tree with one vehicle node under
the root, client `5`, path `"/a"` and `k = 2`. -/
theorem C8_witness :
    ∃ t1 t2 m2,
      subsK 5 [['a']] 2 (.mk .root none (some [(['a'], .mk .uav none none)]))
        = .ok t1 ∧
      unsubsK 5 [['a']] 2 t1 = .ok t2 ∧
      resolveParts t2 [['a']] = .ok m2 ∧
      m2.count_subscriptions_of 5 = 0 ∧
      unsubscribeM t2 5 [['a']] false = .error .notSubscribed :=
  C8_subscribe_unsubscribe (.mk .root none (some [(['a'], .mk .uav none none)]))
    (.mk .uav none none) 5 [['a']] 2 (by decide) rfl rfl

theorem childListSize_mem {l : List (Seg × DeviceTreeNode)} {s : Seg}
    {c : DeviceTreeNode} (h : (s, c) ∈ l) : nodeSize c ≤ childListSize l := by
  induction l with
  | nil => cases h
  | cons a rest ih =>
    obtain ⟨s', c'⟩ := a
    rw [List.mem_cons] at h
    rw [childListSize]
    rcases h with h | h
    · rw [Prod.mk.injEq] at h
      rw [h.2]
      omega
    · have := ih h
      omega

theorem DeviceTreeNode.strongRec {P : DeviceTreeNode → Prop}
    (h : ∀ t subs ch, (∀ l, ch = some l → ∀ s c, (s, c) ∈ l → P c) →
      P (.mk t subs ch)) : ∀ n, P n := by
  have key : ∀ k n, nodeSize n < k → P n := by
    intro k
    induction k with
    | zero =>
      intro n hn
      exact absurd hn (by omega)
    | succ k ih =>
      intro n hn
      obtain ⟨t, subs, ch⟩ := n
      apply h
      intro l hl s c hmem
      apply ih
      subst hl
      have h1 := childListSize_mem hmem
      rw [nodeSize, childrenSize] at hn
      omega
  intro n
  exact key (nodeSize n + 1) n (by omega)

theorem subsGood_all {subs : Option (List (Client × Int))}
    (h : subsGood subs = true) : ∀ x ∈ subs.getD [], 0 ≤ x.2 := by
  cases subs with
  | none => simp
  | some l =>
    rw [subsGood, List.all_eq_true] at h
    intro x hx
    simpa using h x hx

theorem counterGet_nonneg {l : List (Client × Int)}
    (h : ∀ x ∈ l, 0 ≤ x.2) (c : Client) : 0 ≤ counterGet l c := by
  rw [counterGet]
  cases hlk : assocLookup l c with
  | none => simp
  | some v =>
    have := h (c, v) (assocLookup_mem hlk)
    simpa using this

theorem countOfSubs_nonneg {subs : Option (List (Client × Int))}
    (h : subsGood subs = true) (c : Client) : 0 ≤ countOfSubs subs c := by
  rw [countOfSubs_eq_getD]
  exact counterGet_nonneg (subsGood_all h) c

theorem subsGood_set {l : List (Client × Int)} {c : Client} {v : Int}
    (h : ∀ x ∈ l, 0 ≤ x.2) (hv : 0 ≤ v) :
    subsGood (some (assocSet l c v)) = true := by
  rw [subsGood, List.all_eq_true]
  intro x hx
  rcases mem_assocSet hx with hx2 | hx2
  · simp [hx2, hv]
  · simpa using h x hx2

theorem subsGood_erase {l : List (Client × Int)} {c : Client}
    (h : ∀ x ∈ l, 0 ≤ x.2) : subsGood (some (assocErase l c)) = true := by
  rw [subsGood, List.all_eq_true]
  intro x hx
  simpa using h x (mem_assocErase hx)

theorem goodB_mk (t : NodeType) (subs) (ch) :
    goodB (.mk t subs ch) = (subsGood subs && goodChildrenOpt ch) := rfl

theorem goodB_subscribers {n : DeviceTreeNode} (h : goodB n = true) :
    subsGood n.subscribers = true := by
  obtain ⟨t, subs, ch⟩ := n
  rw [goodB_mk, Bool.and_eq_true] at h
  exact h.1

theorem goodChildrenList_mem {l : List (Seg × DeviceTreeNode)} {s : Seg}
    {c : DeviceTreeNode} (hg : goodChildrenList l = true) (h : (s, c) ∈ l) :
    goodB c = true := by
  induction l with
  | nil => cases h
  | cons a rest ih =>
    obtain ⟨s', c'⟩ := a
    rw [goodChildrenList, Bool.and_eq_true] at hg
    rw [List.mem_cons] at h
    rcases h with h | h
    · rw [Prod.mk.injEq] at h
      rw [h.2]
      exact hg.1
    · exact ih hg.2 h

theorem goodChildrenList_set {l : List (Seg × DeviceTreeNode)} {p : Seg}
    {c : DeviceTreeNode} (hg : goodChildrenList l = true) (hc : goodB c = true) :
    goodChildrenList (assocSet l p c) = true := by
  induction l with
  | nil => simp [assocSet, goodChildrenList, hc]
  | cons a rest ih =>
    obtain ⟨s', c'⟩ := a
    rw [goodChildrenList, Bool.and_eq_true] at hg
    by_cases h2 : s' = p
    · rw [assocSet, if_pos h2, goodChildrenList, Bool.and_eq_true]
      exact ⟨hc, hg.2⟩
    · rw [assocSet, if_neg h2, goodChildrenList, Bool.and_eq_true]
      exact ⟨hg.1, ih hg.2⟩

theorem goodB_subscribe {n : DeviceTreeNode} {c : Client}
    (h : goodB n = true) : goodB (n.subscribe c) = true := by
  obtain ⟨t, subs, ch⟩ := n
  rw [goodB_mk, Bool.and_eq_true] at h
  rw [DeviceTreeNode.subscribe]
  rw [show (DeviceTreeNode.mk t subs ch).setSubscribers
      (some (assocSet ((DeviceTreeNode.mk t subs ch).subscribers.getD []) c
        (counterGet ((DeviceTreeNode.mk t subs ch).subscribers.getD []) c + 1)))
    = DeviceTreeNode.mk t
      (some (assocSet (subs.getD []) c (counterGet (subs.getD []) c + 1))) ch
    from rfl]
  rw [goodB_mk, Bool.and_eq_true]
  refine ⟨?_, h.2⟩
  exact subsGood_set (subsGood_all h.1)
    (by have := counterGet_nonneg (subsGood_all h.1) c; omega)

theorem goodB_unsubscribe {n n' : DeviceTreeNode} {c : Client} {force : Bool}
    (h : goodB n = true) (hok : n.unsubscribe c force = .ok n') :
    goodB n' = true := by
  obtain ⟨t, subs, ch⟩ := n
  rw [goodB_mk, Bool.and_eq_true] at h
  rw [DeviceTreeNode.unsubscribe] at hok
  by_cases hcount : 0 < (DeviceTreeNode.mk t subs ch).count_subscriptions_of c
  · rw [if_pos hcount] at hok
    cases force with
    | true =>
      rw [if_pos rfl, Except.ok.injEq] at hok
      subst hok
      rw [show (DeviceTreeNode.mk t subs ch).setSubscribers
          (some (assocErase ((DeviceTreeNode.mk t subs ch).subscribers.getD []) c))
        = DeviceTreeNode.mk t (some (assocErase (subs.getD []) c)) ch from rfl]
      rw [goodB_mk, Bool.and_eq_true]
      exact ⟨subsGood_erase (subsGood_all h.1), h.2⟩
    | false =>
      rw [if_neg (by simp), Except.ok.injEq] at hok
      subst hok
      rw [show (DeviceTreeNode.mk t subs ch).setSubscribers
          (some (assocSet ((DeviceTreeNode.mk t subs ch).subscribers.getD []) c
            (counterGet ((DeviceTreeNode.mk t subs ch).subscribers.getD []) c - 1)))
        = DeviceTreeNode.mk t
          (some (assocSet (subs.getD []) c (counterGet (subs.getD []) c - 1))) ch
        from rfl]
      rw [goodB_mk, Bool.and_eq_true]
      refine ⟨?_, h.2⟩
      apply subsGood_set (subsGood_all h.1)
      rw [DeviceTreeNode.count_subscriptions_of, countOfSubs_eq_getD] at hcount
      rw [show (DeviceTreeNode.mk t subs ch).subscribers = subs from rfl] at hcount
      omega
  · rw [if_neg hcount] at hok
    cases force with
    | true =>
      rw [if_neg (by simp), Except.ok.injEq] at hok
      subst hok
      rw [goodB_mk, Bool.and_eq_true]
      exact h
    | false =>
      simp at hok

theorem modifyAt_good {f : DeviceTreeNode → Except DTError DeviceTreeNode}
    (hf : ∀ n n', goodB n = true → f n = .ok n' → goodB n' = true) :
    ∀ {segs : List Seg} {t t' : DeviceTreeNode}, goodB t = true →
    modifyAtParts f t segs = .ok t' → goodB t' = true := by
  intro segs
  induction segs with
  | nil =>
    intro t t' hg hok
    rw [modifyAtParts] at hok
    exact hf t t' hg hok
  | cons p rest ih =>
    intro t t' hg hok
    obtain ⟨ty, subs, cho⟩ := t
    rw [modifyAtParts] at hok
    cases cho with
    | none => cases hok
    | some ch =>
      rw [show (DeviceTreeNode.mk ty subs (some ch)).children = some ch from rfl]
        at hok
      dsimp only at hok
      cases hlk : assocLookup ch p with
      | none => rw [hlk] at hok; cases hok
      | some c =>
        rw [hlk] at hok
        dsimp only at hok
        cases hrec : modifyAtParts f c rest with
        | error e => rw [hrec] at hok; cases hok
        | ok c2 =>
          rw [hrec] at hok
          dsimp only at hok
          rw [Except.ok.injEq] at hok
          subst hok
          rw [goodB_mk, Bool.and_eq_true] at hg
          have hgch : goodChildrenList ch = true := hg.2
          have hgc : goodB c = true :=
            goodChildrenList_mem hgch (assocLookup_mem hlk)
          have hgc2 : goodB c2 = true := ih hgc hrec
          rw [show (DeviceTreeNode.mk ty subs (some ch)).setChildren
              (some (assocSet ch p c2))
            = DeviceTreeNode.mk ty subs (some (assocSet ch p c2)) from rfl]
          rw [goodB_mk, Bool.and_eq_true]
          exact ⟨hg.1, goodChildrenList_set hgch hgc2⟩

theorem goodB_purgeSubs {subs : Option (List (Client × Int))} {c : Client}
    (h : subsGood subs = true) : subsGood (purgeSubs c subs) = true := by
  cases subs with
  | none => rfl
  | some l =>
    rw [purgeSubs]
    by_cases h2 : (if l.isEmpty then 0 else counterGet l c) > 0
    · rw [if_pos h2]
      exact subsGood_erase (by simpa using subsGood_all h)
    · rw [if_neg h2]
      exact h

theorem goodChildrenList_purge {c : Client} :
    ∀ (l : List (Seg × DeviceTreeNode)),
    (∀ s c2, (s, c2) ∈ l → goodB c2 = true → goodB (purgeClientNode c c2) = true) →
    goodChildrenList l = true → goodChildrenList (purgeClientList c l) = true := by
  intro l
  induction l with
  | nil =>
    intro _ _
    rfl
  | cons a rest ih =>
    intro hrec hg
    obtain ⟨s', c'⟩ := a
    rw [goodChildrenList, Bool.and_eq_true] at hg
    rw [purgeClientList, goodChildrenList, Bool.and_eq_true]
    refine ⟨hrec s' c' (List.mem_cons_self _ _) hg.1, ?_⟩
    exact ih (fun s c2 hm => hrec s c2 (List.mem_cons_of_mem _ hm)) hg.2

theorem goodB_purge (c : Client) : ∀ n, goodB n = true →
    goodB (purgeClientNode c n) = true := by
  apply @DeviceTreeNode.strongRec
    (fun n => goodB n = true → goodB (purgeClientNode c n) = true)
  intro t subs ch hrec hg
  rw [goodB_mk, Bool.and_eq_true] at hg
  rw [purgeClientNode]
  cases ch with
  | none =>
    rw [purgeClientChildren, goodB_mk, Bool.and_eq_true]
    exact ⟨goodB_purgeSubs hg.1, rfl⟩
  | some l =>
    rw [purgeClientChildren, goodB_mk, Bool.and_eq_true]
    refine ⟨goodB_purgeSubs hg.1, ?_⟩
    exact goodChildrenList_purge l (fun s c2 hm => hrec l rfl s c2 hm) hg.2

theorem goodB_applyOp {t : DeviceTreeNode} (op : MgrOp)
    (h : goodB t = true) : goodB (applyOp t op) = true := by
  cases op with
  | sub c segs =>
    rw [applyOp]
    cases hs : subscribeM t c segs with
    | error e => exact h
    | ok t2 =>
      exact modifyAt_good
        (fun n n' hg hok => by
          rw [Except.ok.injEq] at hok
          exact hok ▸ goodB_subscribe hg)
        h hs
  | unsub c segs force =>
    rw [applyOp]
    cases hs : unsubscribeM t c segs force with
    | error e => exact h
    | ok t2 =>
      rw [unsubscribeM] at hs
      cases hm : modifyAtParts (DeviceTreeNode.unsubscribe c force) t segs with
      | error e =>
        rw [hm] at hs
        cases e <;> cases hs
      | ok t3 =>
        rw [hm] at hs
        rw [show (match (Except.ok t3 : Except DTError DeviceTreeNode) with
            | .error .keyError => (Except.error DTError.notSubscribed :
                Except DTError DeviceTreeNode)
            | r => r) = Except.ok t3 from rfl, Except.ok.injEq] at hs
        subst hs
        exact modifyAt_good (fun n n' hg hok => goodB_unsubscribe hg hok) h hm
  | purge c =>
    rw [applyOp]
    exact goodB_purge c t h

/-- C1, counterexample: subscribing client `7` once to the root path and
then unsubscribing once (non-forced) leaves the root's subscriber counter
holding an entry for client `7` with count `0` — the entry is present but
its count is not strictly positive, and it was not removed when the
multiplicity reached `0` (Python's `Counter[c] -= 1` stores the zero). -/
theorem C1_counterexample :
    subscriberEntry
      (applyOp (applyOp (.mk .root none none) (.sub 7 [])) (.unsub 7 [] false)) 7
      = some 0 ∧ ¬ ((0 : Int) > 0) :=
  ⟨rfl, by decide⟩

/-- C1, amended: every count stored in any subscriber counter of the tree
is nonnegative (not necessarily strictly positive), and this is preserved
by every sequence of `Subscribe`/`Unsubscribe`/`PurgeClient` operations; a
non-forced `Unsubscribe` that brings a client's multiplicity from `1` to
`0` succeeds but leaves the client's entry in the map with count `0` (only
a forced unsubscription deletes the entry). -/
theorem C1_amended :
    (∀ (t : DeviceTreeNode) (ops : List MgrOp), goodB t = true →
        goodB (ops.foldl applyOp t) = true) ∧
    (∀ (n : DeviceTreeNode) (c : Client), n.count_subscriptions_of c = 1 →
        ∃ n', n.unsubscribe c false = .ok n' ∧ subscriberEntry n' c = some 0 ∧
          n'.count_subscriptions_of c = 0) := by
  constructor
  · intro t ops
    induction ops generalizing t with
    | nil =>
      intro h
      exact h
    | cons op rest ih =>
      intro h
      rw [List.foldl_cons]
      exact ih (applyOp t op) (goodB_applyOp op h)
  · intro n c hcount
    obtain ⟨n', h1, h2, -, h4⟩ := @unsubscribe_false_pos n c
      (by rw [hcount]; decide)
    rw [hcount] at h2 h4
    exact ⟨n', h1, by simpa using h4, by simpa using h2⟩

/-- C1, witness: the operation-sequence clause evaluated on an initially
empty tree with a subscribe, an unsubscribe and a purge, and the
zero-entry clause evaluated on a node holding one subscription of client
`2`. -/
theorem C1_witness :
    goodB (List.foldl applyOp (.mk .root none none)
      [.sub 1 [], .unsub 1 [] false, .purge 1]) = true ∧
    ∃ n', (DeviceTreeNode.mk .root (some [(2, 1)]) none).unsubscribe 2 false
        = .ok n' ∧ subscriberEntry n' 2 = some 0 ∧
      n'.count_subscriptions_of 2 = 0 :=
  ⟨C1_amended.1 (.mk .root none none) [.sub 1 [], .unsub 1 [] false, .purge 1] rfl,
    C1_amended.2 (.mk .root (some [(2, 1)]) none) 2 rfl⟩

theorem assocLookup_of_mem_nodup {α β : Type} [DecidableEq α]
    {l : List (α × β)} {k : α} {v : β}
    (hnd : (l.map Prod.fst).Nodup) (h : (k, v) ∈ l) :
    assocLookup l k = some v := by
  induction l with
  | nil => cases h
  | cons a rest ih =>
    obtain ⟨k', v'⟩ := a
    rw [List.map_cons, List.nodup_cons] at hnd
    rw [List.mem_cons] at h
    rcases h with h | h
    · rw [Prod.mk.injEq] at h
      rw [assocLookup, if_pos h.1.symm, h.2]
    · by_cases h2 : k' = k
      · subst h2
        exact absurd (List.mem_map_of_mem Prod.fst h) hnd.1
      · rw [assocLookup, if_neg h2]
        exact ih hnd.2 h

theorem assocLookup_purgeList (c : Client) (p : Seg) :
    ∀ l : List (Seg × DeviceTreeNode),
    assocLookup (purgeClientList c l) p
      = (assocLookup l p).map (purgeClientNode c) := by
  intro l
  induction l with
  | nil => rfl
  | cons a rest ih =>
    obtain ⟨s, n⟩ := a
    rw [purgeClientList]
    by_cases h : s = p
    · rw [assocLookup, if_pos h, assocLookup, if_pos h]
      rfl
    · rw [assocLookup, if_neg h, assocLookup, if_neg h, ih]

theorem resolveParts_purge (c : Client) :
    ∀ (segs : List Seg) (t : DeviceTreeNode),
    resolveParts (purgeClientNode c t) segs
      = (resolveParts t segs).map (purgeClientNode c) := by
  intro segs
  induction segs with
  | nil =>
    intro t
    rfl
  | cons p rest ih =>
    intro t
    obtain ⟨ty, subs, cho⟩ := t
    rw [purgeClientNode]
    cases cho with
    | none => rfl
    | some l =>
      rw [purgeClientChildren]
      rw [resolveParts, resolveParts]
      rw [show (DeviceTreeNode.mk ty (purgeSubs c subs)
          (some (purgeClientList c l))).children = some (purgeClientList c l)
        from rfl]
      rw [show (DeviceTreeNode.mk ty subs (some l)).children = some l from rfl]
      dsimp only
      rw [assocLookup_purgeList]
      cases hlk : assocLookup l p with
      | none => rfl
      | some cnode =>
        dsimp only [Option.map]
        exact ih cnode

theorem wfB_mk (t : NodeType) (subs) (ch) :
    wfB (.mk t subs ch) = (subsNodup subs && wfChildrenOpt ch) := rfl

theorem wfChildrenList_mem {l : List (Seg × DeviceTreeNode)} {s : Seg}
    {c : DeviceTreeNode} (hg : wfChildrenList l = true) (h : (s, c) ∈ l) :
    wfB c = true := by
  induction l with
  | nil => cases h
  | cons a rest ih =>
    obtain ⟨s', c'⟩ := a
    rw [wfChildrenList, Bool.and_eq_true] at hg
    rw [List.mem_cons] at h
    rcases h with h | h
    · rw [Prod.mk.injEq] at h
      rw [h.2]
      exact hg.1
    · exact ih hg.2 h

theorem goodB_resolve : ∀ {segs : List Seg} {t m : DeviceTreeNode},
    goodB t = true → resolveParts t segs = .ok m → goodB m = true := by
  intro segs
  induction segs with
  | nil =>
    intro t m hg hres
    rw [resolveParts, Except.ok.injEq] at hres
    exact hres ▸ hg
  | cons p rest ih =>
    intro t m hg hres
    rw [resolveParts] at hres
    cases hch : t.children with
    | none => rw [hch] at hres; cases hres
    | some ch =>
      simp only [hch] at hres
      cases hlk : assocLookup ch p with
      | none =>
        simp only [hlk] at hres
        cases hres
      | some c =>
        simp only [hlk] at hres
        obtain ⟨ty, subs, cho⟩ := t
        rw [show (DeviceTreeNode.mk ty subs cho).children = cho from rfl] at hch
        subst hch
        rw [goodB_mk, Bool.and_eq_true] at hg
        exact ih (goodChildrenList_mem hg.2 (assocLookup_mem hlk)) hres

theorem wfB_resolve : ∀ {segs : List Seg} {t m : DeviceTreeNode},
    wfB t = true → resolveParts t segs = .ok m → wfB m = true := by
  intro segs
  induction segs with
  | nil =>
    intro t m hg hres
    rw [resolveParts, Except.ok.injEq] at hres
    exact hres ▸ hg
  | cons p rest ih =>
    intro t m hg hres
    rw [resolveParts] at hres
    cases hch : t.children with
    | none => rw [hch] at hres; cases hres
    | some ch =>
      simp only [hch] at hres
      cases hlk : assocLookup ch p with
      | none =>
        simp only [hlk] at hres
        cases hres
      | some c =>
        simp only [hlk] at hres
        obtain ⟨ty, subs, cho⟩ := t
        rw [show (DeviceTreeNode.mk ty subs cho).children = cho from rfl] at hch
        subst hch
        rw [wfB_mk, Bool.and_eq_true] at hg
        have hg2 := hg.2
        rw [wfChildrenOpt, Bool.and_eq_true] at hg2
        exact ih (wfChildrenList_mem hg2.2 (assocLookup_mem hlk)) hres

theorem count_purge_self {m : DeviceTreeNode} {c : Client}
    (hg : goodB m = true) (hw : wfB m = true) :
    (purgeClientNode c m).count_subscriptions_of c = 0 := by
  obtain ⟨t, subs, ch⟩ := m
  rw [goodB_mk, Bool.and_eq_true] at hg
  rw [wfB_mk, Bool.and_eq_true] at hw
  rw [purgeClientNode, DeviceTreeNode.count_subscriptions_of,
    show (DeviceTreeNode.mk t (purgeSubs c subs)
      (purgeClientChildren c ch)).subscribers = purgeSubs c subs from rfl]
  cases subs with
  | none => rfl
  | some l =>
    rw [purgeSubs]
    by_cases h2 : (if l.isEmpty then 0 else counterGet l c) > 0
    · rw [if_pos h2, countOfSubs]
      by_cases h3 : (assocErase l c).isEmpty
      · rw [if_pos h3]
      · rw [if_neg h3]
        have hnd : (l.map Prod.fst).Nodup := by
          have := hw.1
          rw [subsNodup, decide_eq_true_eq] at this
          exact this
        rw [counterGet, assocLookup_erase_self hnd]
        rfl
    · rw [if_neg h2, countOfSubs]
      have hge : 0 ≤ countOfSubs (some l) c := countOfSubs_nonneg hg.1 c
      rw [countOfSubs] at hge
      omega

theorem count_purge_frame {m : DeviceTreeNode} {c d : Client} (hd : d ≠ c) :
    (purgeClientNode c m).count_subscriptions_of d
      = m.count_subscriptions_of d := by
  obtain ⟨t, subs, ch⟩ := m
  rw [purgeClientNode, DeviceTreeNode.count_subscriptions_of,
    show (DeviceTreeNode.mk t (purgeSubs c subs)
      (purgeClientChildren c ch)).subscribers = purgeSubs c subs from rfl,
    DeviceTreeNode.count_subscriptions_of,
    show (DeviceTreeNode.mk t subs ch).subscribers = subs from rfl]
  cases subs with
  | none => rfl
  | some l =>
    rw [purgeSubs]
    by_cases h2 : (if l.isEmpty then 0 else counterGet l c) > 0
    · rw [if_pos h2]
      have hlne : ¬l.isEmpty := by
        intro hcon
        rw [if_pos hcon] at h2
        omega
      cases herase : assocErase l c with
      | nil =>
        rcases assocErase_eq_nil herase with h3 | ⟨v, h3⟩
        · rw [h3] at hlne
          simp at hlne
        · subst h3
          rw [countOfSubs, countOfSubs, if_neg hlne]
          rw [show (([] : List (Client × Int))).isEmpty = true from rfl]
          rw [if_pos rfl]
          rw [counterGet, assocLookup, if_neg (fun hh : c = d => hd hh.symm)]
          rfl
      | cons a r =>
        have hne2 : ¬((a :: r) : List (Client × Int)).isEmpty = true := by
          simp
        rw [countOfSubs, countOfSubs, if_neg hlne, if_neg hne2, ← herase,
          counterGet_erase_other l c d hd]
    · rw [if_neg h2]

theorem wfChildrenList_purge {c : Client} :
    ∀ (l : List (Seg × DeviceTreeNode)),
    (∀ s c2, (s, c2) ∈ l → wfB c2 = true → wfB (purgeClientNode c c2) = true) →
    wfChildrenList l = true → wfChildrenList (purgeClientList c l) = true := by
  intro l
  induction l with
  | nil =>
    intro _ _
    rfl
  | cons a rest ih =>
    intro hrec hg
    obtain ⟨s', c'⟩ := a
    rw [wfChildrenList, Bool.and_eq_true] at hg
    rw [purgeClientList, wfChildrenList, Bool.and_eq_true]
    refine ⟨hrec s' c' (List.mem_cons_self _ _) hg.1, ?_⟩
    exact ih (fun s c2 hm => hrec s c2 (List.mem_cons_of_mem _ hm)) hg.2

theorem purgeClientList_keys (c : Client) :
    ∀ l : List (Seg × DeviceTreeNode),
    (purgeClientList c l).map Prod.fst = l.map Prod.fst := by
  intro l
  induction l with
  | nil => rfl
  | cons a rest ih =>
    obtain ⟨s, n⟩ := a
    rw [purgeClientList, List.map_cons, List.map_cons, ih]

theorem assocErase_sublist {α β : Type} [DecidableEq α]
    (l : List (α × β)) (k : α) : (assocErase l k).Sublist l := by
  induction l with
  | nil => simp [assocErase]
  | cons a rest ih =>
    obtain ⟨k', v'⟩ := a
    by_cases h3 : k' = k
    · rw [assocErase, if_pos h3]
      exact List.sublist_cons_self _ _
    · rw [assocErase, if_neg h3]
      exact List.Sublist.cons₂ _ ih

theorem subsNodup_purgeSubs {subs : Option (List (Client × Int))} {c : Client}
    (h : subsNodup subs = true) : subsNodup (purgeSubs c subs) = true := by
  cases subs with
  | none => rfl
  | some l =>
    rw [purgeSubs]
    by_cases h2 : (if l.isEmpty then 0 else counterGet l c) > 0
    · rw [if_pos h2]
      rw [subsNodup, decide_eq_true_eq] at h ⊢
      exact h.sublist ((assocErase_sublist l c).map Prod.fst)
    · rw [if_neg h2]
      exact h

theorem wfB_purge (c : Client) : ∀ n, wfB n = true →
    wfB (purgeClientNode c n) = true := by
  apply @DeviceTreeNode.strongRec
    (fun n => wfB n = true → wfB (purgeClientNode c n) = true)
  intro t subs ch hrec hg
  rw [wfB_mk, Bool.and_eq_true] at hg
  rw [purgeClientNode]
  cases ch with
  | none =>
    rw [purgeClientChildren, wfB_mk, Bool.and_eq_true]
    exact ⟨subsNodup_purgeSubs hg.1, rfl⟩
  | some l =>
    rw [purgeClientChildren, wfB_mk, Bool.and_eq_true]
    refine ⟨subsNodup_purgeSubs hg.1, ?_⟩
    have hg2 := hg.2
    rw [wfChildrenOpt, Bool.and_eq_true] at hg2 ⊢
    constructor
    · rw [decide_eq_true_eq, purgeClientList_keys]
      rw [decide_eq_true_eq] at hg2
      exact hg2.1
    · exact wfChildrenList_purge l (fun s c2 hm => hrec l rfl s c2 hm) hg2.2

theorem purge_resolve_zero {t : DeviceTreeNode} {c : Client}
    (hg : goodB t = true) (hw : wfB t = true) :
    ∀ (segs : List Seg) (m' : DeviceTreeNode),
    resolveParts (purgeClientNode c t) segs = .ok m' →
    m'.count_subscriptions_of c = 0 := by
  intro segs m' hres
  rw [resolveParts_purge] at hres
  cases hr : resolveParts t segs with
  | error e =>
    rw [hr] at hres
    cases hres
  | ok m =>
    rw [hr] at hres
    rw [show (Except.ok m : Except DTError DeviceTreeNode).map
        (purgeClientNode c) = .ok (purgeClientNode c m) from rfl,
      Except.ok.injEq] at hres
    subst hres
    exact count_purge_self (goodB_resolve hg hr) (wfB_resolve hw hr)

theorem resolveParts_step {n child : DeviceTreeNode} {s : Seg}
    {l : List (Seg × DeviceTreeNode)} (hch : n.children = some l)
    (hnd : (l.map Prod.fst).Nodup) (hmem : (s, child) ∈ l) :
    ∀ segs, resolveParts n (s :: segs) = resolveParts child segs := by
  intro segs
  rw [resolveParts]
  simp only [hch]
  rw [assocLookup_of_mem_nodup hnd hmem]

theorem collectOwn_zero {c : Client} {pp : List Seg}
    {subs : Option (List (Client × Int))} {res : List (List Char × Int)}
    (h : countOfSubs subs c = 0) : collectOwn c pp subs res = res := by
  rw [collectOwn, if_neg (by omega)]

theorem collectFrames_zero {c : Client} :
    ∀ (q : List (List Seg × DeviceTreeNode)) (res : List (List Char × Int)),
    (∀ e ∈ q, wfB e.2 = true ∧
      ∀ segs m, resolveParts e.2 segs = .ok m →
        m.count_subscriptions_of c = 0) →
    collectFrames c q res = res := by
  intro q res
  induction q, res using collectFrames.induct c with
  | case1 res =>
    intro _
    rw [collectFrames]
  | case2 res pp n rest ih =>
    intro h
    have hn := h (pp, n) (List.mem_cons_self _ _)
    have hcount : n.count_subscriptions_of c = 0 := hn.2 [] n rfl
    have hchild : ∀ e ∈ n.iterchildren.map
        (fun p => (pp ++ [p.1], p.2)) ++ rest, wfB e.2 = true ∧
        ∀ segs m, resolveParts e.2 segs = .ok m →
          m.count_subscriptions_of c = 0 := by
      intro e he
      rw [List.mem_append] at he
      rcases he with he | he
      · rw [List.mem_map] at he
        obtain ⟨⟨s, child⟩, hmem, heq⟩ := he
        subst heq
        obtain ⟨ty, subs, cho⟩ := n
        cases cho with
        | none =>
          rw [DeviceTreeNode.iterchildren,
            show (DeviceTreeNode.mk ty subs none).children = none from rfl]
            at hmem
          cases hmem
        | some l =>
          rw [DeviceTreeNode.iterchildren,
            show (DeviceTreeNode.mk ty subs (some l)).children = some l
              from rfl] at hmem
          have hw := hn.1
          rw [wfB_mk, Bool.and_eq_true] at hw
          have hw2 := hw.2
          rw [wfChildrenOpt, Bool.and_eq_true, decide_eq_true_eq] at hw2
          refine ⟨wfChildrenList_mem hw2.2 hmem, ?_⟩
          intro segs m hres
          exact hn.2 (s :: segs) m
            (by
              rw [resolveParts_step
                (show (DeviceTreeNode.mk ty subs (some l)).children = some l
                  from rfl) hw2.1 hmem]
              exact hres)
      · exact h e (List.mem_cons_of_mem _ he)
    rw [collectFrames, ih hchild, collectOwn_zero]
    rw [show n.subscribers = (DeviceTreeNode.subscribers n) from rfl]
    rw [← DeviceTreeNode.count_subscriptions_of]
    exact hcount

/-- C9: `PurgeClient` never fails — the per-node forced unsubscription
always returns (first conjunct, the exact effect of
`_unsubscribe(force=True)` on a node) — and from any reachable subscription
state (nonnegative counts, dict-unique keys): afterwards
`ListSubscriptions(c, None)` returns an empty counter; the purged client's
`SubscriberCount` is `0` on every node of the tree; and every other
client's multiplicity on every node is exactly what it was before the
purge. -/
theorem C9_purge_client :
    ∀ (t : DeviceTreeNode) (c : Client), goodB t = true → wfB t = true →
      (∀ n : DeviceTreeNode, n.unsubscribe c true
          = .ok (n.setSubscribers (purgeSubs c n.subscribers))) ∧
      list_subscriptions (purgeClientNode c t) c none = .ok [] ∧
      (∀ segs m, resolveParts t segs = .ok m →
        resolveParts (purgeClientNode c t) segs = .ok (purgeClientNode c m) ∧
        (purgeClientNode c m).count_subscriptions_of c = 0) ∧
      (∀ d, d ≠ c → ∀ segs m, resolveParts t segs = .ok m →
        (purgeClientNode c m).count_subscriptions_of d
          = m.count_subscriptions_of d) := by
  intro t c hg hw
  refine ⟨fun n => unsubscribe_force_eq n c, ?_, ?_, ?_⟩
  · rw [show list_subscriptions (purgeClientNode c t) c none
        = .ok (collect_subscriptions c [[]] (purgeClientNode c t) []) from rfl]
    rw [collect_subscriptions]
    rw [collectFrames_zero [([[]], purgeClientNode c t)] []
      (by
        intro e he
        rw [List.mem_singleton] at he
        subst he
        exact ⟨wfB_purge c t hw, purge_resolve_zero hg hw⟩)]
  · intro segs m hres
    constructor
    · rw [resolveParts_purge, hres]
      rfl
    · exact count_purge_self (goodB_resolve hg hres) (wfB_resolve hw hres)
  · intro d hd segs m hres
    exact count_purge_frame hd

/-- C9, witness: the theorem evaluated on a tree whose root holds two
subscriptions of client `1` and one of client `2`, with a vehicle child
holding one subscription of client `1`; purging client `1` leaves it with
an empty subscription listing. -/
theorem C9_witness :
    list_subscriptions
      (purgeClientNode 1 (.mk .root (some [(1, 2), (2, 1)])
        (some [(['a'], .mk .uav (some [(1, 1)]) none)]))) 1 none = .ok [] :=
  (C9_purge_client (.mk .root (some [(1, 2), (2, 1)])
    (some [(['a'], .mk .uav (some [(1, 1)]) none)])) 1 rfl rfl).2.1

theorem keySum_append (key : List Char) (a b : List (List Char × Int)) :
    keySum key (a ++ b) = keySum key a + keySum key b := by
  induction a with
  | nil =>
    rw [List.nil_append, keySum]
    omega
  | cons x rest ih =>
    obtain ⟨k, v⟩ := x
    rw [List.cons_append, keySum, keySum, ih]
    omega

theorem counterGet_counterAdd (res : List (List Char × Int)) (k key : List Char)
    (v : Int) : counterGet (counterAdd res k v) key
      = counterGet res key + (if k = key then v else 0) := by
  rw [counterAdd]
  by_cases h : k = key
  · subst h
    rw [counterGet_set_self, if_pos rfl]
  · rw [counterGet_set_other _ _ _ _ (fun hh => h hh.symm), if_neg h]
    omega

theorem keySum_entriesChildren (c : Client) (key : List Char) (pp : List Seg) :
    ∀ l : List (Seg × DeviceTreeNode),
    keySum key ((entriesChildren c l).map
        (fun e => (joinSlash (pp ++ e.1), e.2)))
      = (l.map (fun p => keySum key (absEntries c (pp ++ [p.1]) p.2))).sum := by
  intro l
  induction l with
  | nil => rfl
  | cons a rest ih =>
    obtain ⟨cid, child⟩ := a
    rw [entriesChildren, List.map_append, keySum_append, ih, List.map_cons,
      List.sum_cons]
    dsimp only
    congr 1
    rw [absEntries, List.map_map]
    congr 1
    apply List.map_congr_left
    intro e he
    show (joinSlash (pp ++ cid :: e.1), e.2)
      = (joinSlash ((pp ++ [cid]) ++ e.1), e.2)
    rw [List.append_cons]

theorem keySum_absEntries (c : Client) (key : List Char) (pp : List Seg)
    (t : NodeType) (subs : Option (List (Client × Int)))
    (ch : Option (List (Seg × DeviceTreeNode))) :
    keySum key (absEntries c pp (.mk t subs ch))
      = (if 0 < countOfSubs subs c ∧ joinSlash pp = key
          then countOfSubs subs c else 0)
        + (((DeviceTreeNode.mk t subs ch).iterchildren).map
            (fun p => keySum key (absEntries c (pp ++ [p.1]) p.2))).sum := by
  rw [absEntries, entriesNode, List.map_append, keySum_append]
  congr 1
  · by_cases h : 0 < countOfSubs subs c
    · rw [if_pos h, List.map_cons, List.map_nil, List.append_nil, keySum, keySum]
      by_cases h2 : joinSlash pp = key
      · rw [if_pos h2, if_pos (⟨h, h2⟩ : _ ∧ _)]
        omega
      · rw [if_neg h2, if_neg (fun hh : _ ∧ _ => h2 hh.2)]
        omega
    · rw [if_neg h, if_neg (fun hh : _ ∧ _ => h hh.1), List.map_nil, keySum]
  · cases ch with
    | none => rfl
    | some l =>
      rw [entriesChildrenOpt, keySum_entriesChildren]
      rfl

theorem counterGet_collectFrames {c : Client} :
    ∀ (q : List (List Seg × DeviceTreeNode)) (res : List (List Char × Int)),
    ∀ key : List Char,
    counterGet (collectFrames c q res) key
      = counterGet res key
        + (q.map (fun e => keySum key (absEntries c e.1 e.2))).sum := by
  intro q res
  induction q, res using collectFrames.induct c with
  | case1 res =>
    intro key
    rw [collectFrames]
    simp
  | case2 res pp n rest ih =>
    intro key
    rw [collectFrames, ih key]
    obtain ⟨t, subs, ch⟩ := n
    rw [List.map_cons, List.sum_cons]
    dsimp only
    rw [keySum_absEntries]
    rw [List.map_append, List.sum_append, List.map_map]
    rw [show ((fun e => keySum key (absEntries c e.1 e.2)) ∘
        (fun p : Seg × DeviceTreeNode => (pp ++ [p.1], p.2)))
      = fun p : Seg × DeviceTreeNode =>
          keySum key (absEntries c (pp ++ [p.1]) p.2) from rfl]
    rw [show (DeviceTreeNode.mk t subs ch).subscribers = subs from rfl]
    rw [collectOwn]
    by_cases hcnt : countOfSubs subs c > 0
    · rw [if_pos hcnt, counterGet_counterAdd]
      by_cases h2 : joinSlash pp = key
      · rw [if_pos h2, if_pos (⟨hcnt, h2⟩ : _ ∧ _)]
        omega
      · rw [if_neg h2, if_neg (fun hh : _ ∧ _ => h2 hh.2)]
        omega
    · rw [if_neg hcnt, if_neg (fun hh : _ ∧ _ => hcnt hh.1)]
      omega

theorem listSubsGo_spec {tree : DeviceTreeNode} {c : Client} :
    ∀ (fs : List (List Char)) (res R : List (List Char × Int)),
    listSubsGo tree c fs res = .ok R →
    ∀ key : List Char, counterGet R key
      = counterGet res key + (fs.map (filterContribution tree c key)).sum := by
  intro fs
  induction fs with
  | nil =>
    intro res R h key
    rw [listSubsGo, Except.ok.injEq] at h
    subst h
    simp
  | cons f rest ih =>
    intro res R h key
    rw [listSubsGo] at h
    cases hp : parsePath f with
    | error e =>
      rw [hp] at h
      cases h
    | ok parts =>
      rw [hp] at h
      dsimp only at h
      cases hr : resolveParts tree (iterparts parts) with
      | error e =>
        rw [hr] at h
        cases h
      | ok node =>
        rw [hr] at h
        dsimp only at h
        rw [List.map_cons, List.sum_cons, ih _ _ h key]
        rw [show collect_subscriptions c parts node res
          = collectFrames c [(parts, node)] res from rfl]
        rw [counterGet_collectFrames]
        rw [show filterContribution tree c key f
          = keySum key (absEntries c parts node) from by
            rw [filterContribution, hp]
            dsimp only
            rw [hr]]
        simp
        omega

/-- C10: `ListSubscriptions` defaults to the single root filter `"/"` when
no filter is given (first conjunct), and on success its result counter maps
each key to the sum, over the given filter paths, of the contributions of
that filter — where a filter that parses and resolves contributes the
multiplicity of every node of its subtree with positive multiplicity for
the client, keyed by the node's full canonical path string.  A node
reachable under several overlapping filters is therefore counted once per
filter, not deduplicated. -/
theorem C10_list_subscriptions :
    (∀ (tree : DeviceTreeNode) (c : Client),
        list_subscriptions tree c none
          = list_subscriptions tree c (some [['/']])) ∧
    (∀ (tree : DeviceTreeNode) (c : Client) (fs : List (List Char))
        (R : List (List Char × Int)),
        list_subscriptions tree c (some fs) = .ok R →
        ∀ key : List Char,
          counterGet R key = (fs.map (filterContribution tree c key)).sum) := by
  constructor
  · intro tree c
    rfl
  · intro tree c fs R h key
    have h2 := listSubsGo_spec fs [] R
      (by rw [list_subscriptions] at h; exact h) key
    rw [show counterGet ([] : List (List Char × Int)) key = 0 from rfl,
      zero_add] at h2
    exact h2

/-- C10, witness: the sum characterization evaluated at key `"/a"` for the
overlapping filters `"/"` and `"/a"` on a tree where client `1` holds two
subscriptions at `/a` and one at `/a/g` — the result shows `/a` counted
once per filter (total `4`). -/
theorem C10_witness :
    counterGet [(['/', 'a'], 4), (['/', 'a', '/', 'g'], 2)] ['/', 'a']
      = ([['/'], ['/', 'a']].map (filterContribution
          (.mk .root none (some [(['a'], .mk .uav (some [(1, 2)])
            (some [(['g'], .mk .device (some [(1, 1)]) none)]))]))
          1 ['/', 'a'])).sum :=
  C10_list_subscriptions.2
    (.mk .root none (some [(['a'], .mk .uav (some [(1, 2)])
      (some [(['g'], .mk .device (some [(1, 1)]) none)]))]))
    1 [['/'], ['/', 'a']] [(['/', 'a'], 4), (['/', 'a', '/', 'g'], 2)]
    (by
      simp [list_subscriptions, listSubsGo, parsePath, splitSlash, iterparts,
        resolveParts, collect_subscriptions, collectFrames, collectOwn,
        DeviceTreeNode.iterchildren, DeviceTreeNode.children,
        DeviceTreeNode.subscribers, countOfSubs, counterGet, assocLookup,
        counterAdd, assocSet, joinSlash])
    ['/', 'a']
